import Mathlib

/-!
# Verification of the nix-index file database core (`src/database.rs`)

This file is a shallow embedding of the database writer, container format and
streaming query engine of the repository, together with proofs about them.

Bytes are modelled as `Nat` (every byte the code manipulates is compared for
equality or order only, so no modular arithmetic is needed; concrete byte
values are all < 256).

The modules `frcode`, `files` and `package` are used by `database.rs` but are
not part of this repository snapshot; the definitions that stand in for them
are modelled from the specification and marked as such in their doc comments.
-/

namespace NixIndex

abbrev Byte := Nat

/-! ## Regex AST (mirrors `regex_syntax::ast` as used by `Query::run`)

`Query::run` parses the user regex into a `regex_syntax::ast::Ast` and walks
it with an explicit stack, replacing every `StartLine` assertion by a literal
NUL and descending through groups, repetitions, concatenations and
alternations.  We embed the AST with binary concatenation/alternation (the
source uses vectors; the rewrite and the matching semantics are insensitive to
the difference) and with the leaf kinds the engine's patterns can contain:
literals, `.`, bracket classes and assertions. -/

/-- The assertion kinds of `regex_syntax::ast::AssertionKind`. -/
inductive AssertionKind where
  | startLine
  | endLine
  | startText
  | endText
  | wordBoundary
  | notWordBoundary
deriving DecidableEq, Repr

inductive Ast where
  | empty
  | literal (b : Byte)
  | dot
  | cls (bs : List Byte)
  | assertion (k : AssertionKind)
  | group (a : Ast)
  | star (a : Ast)
  | cat (l r : Ast)
  | alt (l r : Ast)
deriving DecidableEq, Repr

/-- The anchor rewrite of `Query::run` (database.rs:236-256): every
`StartLine` assertion (`^`) is replaced by a literal NUL byte; the rewrite
descends through groups, repetitions, concatenations and alternations and
leaves every other node unchanged. -/
def replaceAnchors : Ast → Ast
  | .assertion .startLine => .literal 0
  | .group a => .group (replaceAnchors a)
  | .star a => .star (replaceAnchors a)
  | .cat l r => .cat (replaceAnchors l) (replaceAnchors r)
  | .alt l r => .alt (replaceAnchors l) (replaceAnchors r)
  | a => a

/-! ## Matching semantics

`endsAt ml h a i` is the list of positions `j` such that `a` matches the byte
span `h[i..j)`; assertions are evaluated at absolute positions of `h`.  The
flag `ml` selects multi-line semantics (`^` after any `\n`, `$` before any
`\n`), as configured by the grep matcher the engine builds
(`line_terminator(Some(b'\n')).multi_line(true)`), versus the default
semantics of `regex::bytes::Regex` used for the exact pattern (`^` only at the
start of the haystack, `$` only at its end). -/

/-- Word bytes, for `\b` semantics: `[0-9A-Za-z_]`. -/
def isWordByte (b : Byte) : Bool :=
  decide ((48 ≤ b ∧ b ≤ 57) ∨ (65 ≤ b ∧ b ≤ 90) ∨ (97 ≤ b ∧ b ≤ 122) ∨ b = 95)

/-- The byte just before position `i`, if any. -/
def byteBefore (h : List Byte) (i : Nat) : Option Byte :=
  if i = 0 then none else h[i - 1]?

def isWordOpt (b : Option Byte) : Bool :=
  match b with
  | none => false
  | some c => isWordByte c

def assertHolds (ml : Bool) (h : List Byte) (k : AssertionKind) (i : Nat) : Bool :=
  match k with
  | .startLine =>
      if ml then decide (i = 0) || decide (byteBefore h i = some 10)
      else decide (i = 0)
  | .endLine =>
      if ml then decide (i = h.length) || decide (h[i]? = some 10)
      else decide (i = h.length)
  | .startText => decide (i = 0)
  | .endText => decide (i = h.length)
  | .wordBoundary => isWordOpt (byteBefore h i) != isWordOpt h[i]?
  | .notWordBoundary => isWordOpt (byteBefore h i) == isWordOpt h[i]?

/-- Positions reachable from `i` by repeatedly applying one progressing match
of the starred sub-pattern.  Skipping the empty iterations of a star does not
change the set of end positions (`(L ∖ {ε})* = L*`); every recursive step
strictly increases the position and positions are bounded by `n`, so fuel
`n + 2` never runs out (the fuel recursion keeps the definition reducible by
the kernel). -/
def starReachAux (f : Nat → List Nat) (n : Nat) : Nat → Nat → List Nat
  | 0, i => [i]
  | fuel + 1, i =>
    i :: ((f i).filter (fun j => decide (i < j) && decide (j ≤ n))).flatMap
      (starReachAux f n fuel)

def starReach (f : Nat → List Nat) (n : Nat) (i : Nat) : List Nat :=
  starReachAux f n (n + 2) i

def endsAt (ml : Bool) (h : List Byte) : Ast → Nat → List Nat
  | .empty, i => [i]
  | .literal b, i => if h[i]? = some b then [i + 1] else []
  | .dot, i =>
      match h[i]? with
      | some c => if c = 10 then [] else [i + 1]
      | none => []
  | .cls bs, i =>
      match h[i]? with
      | some c => if c ∈ bs then [i + 1] else []
      | none => []
  | .assertion k, i => if assertHolds ml h k i then [i] else []
  | .group a, i => endsAt ml h a i
  | .star a, i => starReach (endsAt ml h a) h.length i
  | .cat l r, i => (endsAt ml h l i).flatMap (endsAt ml h r)
  | .alt l r, i => endsAt ml h l i ++ endsAt ml h r i

/-- `is_match`: does `a` match somewhere in `h`? -/
def hasMatch (ml : Bool) (a : Ast) (h : List Byte) : Bool :=
  (List.range (h.length + 1)).any (fun s => !(endsAt ml h a s).isEmpty)

/-- Does `a` match somewhere in `h` starting at or after position `lo`? -/
def hasMatchFrom (ml : Bool) (a : Ast) (h : List Byte) (lo : Nat) : Bool :=
  (List.range (h.length + 1)).any
    (fun s => decide (lo ≤ s) && !(endsAt ml h a s).isEmpty)

/-- An AST with no assertions at all (the "plain core" of the path regexes
the anchor-rewrite claims quantify over). -/
def plainAst : Ast → Bool
  | .assertion _ => false
  | .group a => plainAst a
  | .star a => plainAst a
  | .cat l r => plainAst l && plainAst r
  | .alt l r => plainAst l && plainAst r
  | _ => true

/-- An AST none of whose atoms can match the line terminator `\n` (the grep
builder guarantees this for every pattern it accepts). -/
def nlFreeAst : Ast → Bool
  | .literal b => decide (b ≠ 10)
  | .cls bs => decide (10 ∉ bs)
  | .group a => nlFreeAst a
  | .star a => nlFreeAst a
  | .cat l r => nlFreeAst l && nlFreeAst r
  | .alt l r => nlFreeAst l && nlFreeAst r
  | _ => true

/-- The decoded byte form of a file record with metadata `m` and path `p`:
`METADATA\0PATH\n`. -/
def recordBytes (m p : List Byte) : List Byte := m ++ 0 :: (p ++ [10])

/-- Chains of progressing matches of the starred sub-pattern: the
specification of `starReach`. -/
inductive StarChain (f : Nat → List Nat) (n : Nat) : Nat → Nat → Prop where
  | refl (i : Nat) : StarChain f n i i
  | step {i j k : Nat} : j ∈ f i → i < j → j ≤ n → StarChain f n j k → StarChain f n i k

/-- The semantics of `Matcher::shortest_match` on `h`: the smallest end offset
of any match of `a` in `h`. -/
def leftmostEnd (ml : Bool) (a : Ast) (h : List Byte) : Option Nat :=
  (List.range (h.length + 1)).find?
    (fun e => (List.range (e + 1)).any (fun s => decide (e ∈ endsAt ml h a s)))

/-! ## Line geometry (`memrchr`/`memchr` in `next_matching_line`) -/

/-- `memrchr(b'\n', &buf[..pos])`: the index of the last newline strictly
before `pos`. -/
def lastNlBefore (buf : List Byte) (pos : Nat) : Option Nat :=
  ((List.range pos).filter (fun k => buf[k]? = some 10)).getLast?

/-- `memrchr(..).map(|x| x + 1).unwrap_or(0)`: start of the line containing
`pos`. -/
def lineStartAt (buf : List Byte) (pos : Nat) : Nat :=
  match lastNlBefore buf pos with
  | some k => k + 1
  | none => 0

/-- `memchr(b'\n', &buf[pos..]).map(|x| x + pos + 1).unwrap_or(buf.len())`:
end of the line containing `pos` (one past its newline, or the end of the
buffer). -/
def lineEndAt (buf : List Byte) (pos : Nat) : Nat :=
  match (List.range' pos (buf.length - pos)).find? (fun k => buf[k]? = some 10) with
  | some k => k + 1
  | none => buf.length

/-- Net effect of `next_matching_line` (database.rs:309-340): run the matcher
on `buf[start..]` (`find_candidate_line`, whose position comes from
`shortest_match` on the slice; candidate positions are confirmed against the
enclosing line, so the returned line is always one containing a real match)
and return the start/end of the line enclosing the reported position. -/
def nextMatchingLine (a : Ast) (buf : List Byte) (start : Nat) : Option (Nat × Nat) :=
  match leftmostEnd true a (buf.drop start) with
  | none => none
  | some rel =>
    let pos := start + rel
    some (lineStartAt buf pos, lineEndAt buf pos)

/-- `&l[a..b]` as the source slices byte buffers: `none` models the Rust
panic on an invalid range (`a > b` or `b > l.len()`). -/
def sliceRange (l : List Byte) (a b : Nat) : Option (List Byte) :=
  if a ≤ b ∧ b ≤ l.length then some ((l.drop a).take (b - a)) else none

/-! ## Data model

`StorePath` (from `package.rs`) and `FileTree`/`FileTreeEntry` (from
`files.rs`) are used by `database.rs` but their sources are not part of this
repository snapshot, so they are modelled from the specification (§3, §6). -/

/-- Modelled from the spec: the `origin` attribute of a `StorePath`
(`{attr, output, toplevel}`), from the missing `package.rs`. -/
structure PathOrigin where
  attr : List Byte
  output : List Byte
  toplevel : Bool
deriving DecidableEq, Repr

/-- Modelled from the spec: `StorePath` from the missing `package.rs`;
semantic attributes `hash` (content-address identifier), `name` (human
package name) and `origin`.  `StorePath::hash()` and `StorePath::name()` are
the field projections. -/
structure StorePath where
  hash : List Byte
  name : List Byte
  origin : PathOrigin
deriving DecidableEq, Repr

/-- Modelled from the spec: the JSON serialization of a `StorePath`
(`serde_json::to_vec`).  The spec treats the encoding as opaque except that it
round-trips and contains no NUL and no newline; we fix one concrete JSON
object shape `{"h":"…","n":"…","a":"…","o":"…","t":0|1}`. -/
def storePathJson (p : StorePath) : List Byte :=
  [123, 34, 104, 34, 58, 34] ++ p.hash ++ [34, 44, 34, 110, 34, 58, 34] ++ p.name ++
    [34, 44, 34, 97, 34, 58, 34] ++ p.origin.attr ++ [34, 44, 34, 111, 34, 58, 34] ++
    p.origin.output ++ [34, 44, 34, 116, 34, 58, if p.origin.toplevel then 49 else 48, 125]

/-- Consume an expected literal byte sequence. -/
def expectBytes (pat l : List Byte) : Option (List Byte) :=
  if l.take pat.length = pat then some (l.drop pat.length) else none

/-- Consume a quoted field: bytes up to the next `"`. -/
def takeQuoted (l : List Byte) : Option (List Byte × List Byte) :=
  match l.findIdx? (fun b => b = 34) with
  | none => none
  | some k => some (l.take k, l.drop (k + 1))

/-- Modelled from the spec: `serde_json::from_slice::<StorePath>`, the partial
inverse of `storePathJson`. -/
def storePathFromJson (l : List Byte) : Option StorePath :=
  match expectBytes [123, 34, 104, 34, 58, 34] l with
  | none => none
  | some l1 =>
    match takeQuoted l1 with
    | none => none
    | some (hash, l2) =>
      match expectBytes [44, 34, 110, 34, 58, 34] l2 with
      | none => none
      | some l3 =>
        match takeQuoted l3 with
        | none => none
        | some (name, l4) =>
          match expectBytes [44, 34, 97, 34, 58, 34] l4 with
          | none => none
          | some l5 =>
            match takeQuoted l5 with
            | none => none
            | some (attr, l6) =>
              match expectBytes [44, 34, 111, 34, 58, 34] l6 with
              | none => none
              | some l7 =>
                match takeQuoted l7 with
                | none => none
                | some (output, l8) =>
                  match expectBytes [44, 34, 116, 34, 58] l8 with
                  | none => none
                  | some l9 =>
                    match l9 with
                    | [48, 125] => some ⟨hash, name, ⟨attr, output, false⟩⟩
                    | [49, 125] => some ⟨hash, name, ⟨attr, output, true⟩⟩
                    | _ => none

/-- Modelled from the spec: the node of a file tree entry — regular file with
size and executable bit, symlink with target, or directory (missing
`files.rs`). -/
inductive FileNode where
  | regular (size : Nat) (executable : Bool)
  | symlink (target : List Byte)
  | directory
deriving DecidableEq, Repr

/-- Modelled from the spec: a single file entry inside a package (missing
`files.rs`). -/
structure FileTreeEntry where
  path : List Byte
  node : FileNode
deriving DecidableEq, Repr

/-- Little-endian decimal digit bytes of `n` (empty for 0); fuel-based so the
kernel can evaluate it. -/
def decDigitsAux : Nat → Nat → List Byte
  | 0, _ => []
  | _ + 1, 0 => []
  | fuel + 1, n => (n % 10 + 48) :: decDigitsAux fuel (n / 10)

def decDigits (n : Nat) : List Byte := decDigitsAux (n + 1) n

/-- Value of little-endian decimal digit bytes. -/
def decValue (l : List Byte) : Nat :=
  match l with
  | [] => 0
  | d :: rest => (d - 48) + 10 * decValue rest

def isDigitByte (b : Byte) : Bool := decide (48 ≤ b ∧ b ≤ 57)

/-- Modelled from the spec: the METADATA prefix of an encoded
`FileTreeEntry` — a fixed-structure, NUL-free and newline-free encoding of
the node kind and its attributes. -/
def FileNode.metaBytes : FileNode → List Byte
  | .regular size ex => 114 :: (decDigits size ++ [if ex then 120 else 45])
  | .symlink t => 115 :: t
  | .directory => [100]

/-- Parse a METADATA prefix back into a node. -/
def parseMeta (l : List Byte) : Option FileNode :=
  match l with
  | 114 :: rest =>
    let digits := rest.takeWhile isDigitByte
    match rest.drop digits.length with
    | [120] => some (.regular (decValue digits) true)
    | [45] => some (.regular (decValue digits) false)
    | _ => none
  | 115 :: rest => some (.symlink rest)
  | [100] => some .directory
  | _ => none

/-- Modelled from the spec: the encoded form `METADATA\0PATH` of a
`FileTreeEntry`. -/
def FileTreeEntry.encodeBytes (e : FileTreeEntry) : List Byte :=
  e.node.metaBytes ++ 0 :: e.path

/-- `FileTreeEntry::decode`: split the record body at its first NUL into
METADATA and PATH and parse the metadata (modelled from the spec; the call
site is database.rs:443). -/
def FileTreeEntry.decode (l : List Byte) : Option FileTreeEntry :=
  match l.findIdx? (fun b => b = 0) with
  | none => none
  | some k => (parseMeta (l.take k)).map (fun n => ⟨l.drop (k + 1), n⟩)

/-- Modelled from the spec: the in-memory `FileTree` (missing `files.rs`),
reduced to the deterministic entry sequence its traversal produces. -/
structure FileTree where
  entries : List FileTreeEntry
deriving DecidableEq, Repr

/-- Modelled from the spec: `FileTree::to_list(filter_prefix)` — the entries
of the tree whose path starts with the given byte prefix, in traversal
order. -/
def FileTree.toList (t : FileTree) (filt : List Byte) : List FileTreeEntry :=
  t.entries.filter (fun e => filt.isPrefixOf e.path)

/-! ## Records and the writer pipeline

In the decoded frcode stream every record ends with a `\n` sentinel; a
package record is `p\0JSON\n` and a file record is `METADATA\0PATH\n`
(spec §3, §6; `Writer::add` at database.rs:67-80 writes the package header
`p` with the JSON store path and one record per retained entry through the
frcode encoder, whose source is not in this snapshot). -/

def packageRecord (p : StorePath) : List Byte := 112 :: 0 :: (storePathJson p ++ [10])

def entryRecord (e : FileTreeEntry) : List Byte := e.encodeBytes ++ [10]

/-- The decoded byte stream one `Writer::add(path, files, filter_prefix)`
call contributes: one file record per retained entry, then the package
record (spec §4.3; the frcode codec's contract is records in, identical
records out). -/
def writerAdd (path : StorePath) (files : FileTree) (filt : List Byte) : List Byte :=
  ((files.toList filt).flatMap entryRecord) ++ packageRecord path

/-- The full decoded record stream of a sequence of `add` calls. -/
def writerStream (adds : List (StorePath × FileTree × List Byte)) : List Byte :=
  adds.flatMap (fun a => writerAdd a.1 a.2.1 a.2.2)

/-! ## Container format (`Writer::create`, `Reader::open`) -/

def FILE_MAGIC : List Byte := [78, 73, 88, 73]

def FORMAT_VERSION : Nat := 1

/-- Little-endian 8-byte encoding, as written by `write_u64::<LittleEndian>`. -/
def le64 (v : Nat) : List Byte :=
  (List.range 8).map (fun k => v / 256 ^ k % 256)

/-- Value of the first 8 bytes read little-endian
(`read_u64::<LittleEndian>`); callers check that 8 bytes are present. -/
def readLe64 (l : List Byte) : Nat :=
  match l with
  | b0 :: b1 :: b2 :: b3 :: b4 :: b5 :: b6 :: b7 :: _ =>
    b0 + 256 * (b1 + 256 * (b2 + 256 * (b3 + 256 * (b4 + 256 * (b5 + 256 * (b6 + 256 * b7))))))
  | _ => 0

/-- The bytes `Writer::create` puts at the start of the file: the magic
`NIXI` followed by the little-endian format version 1 (database.rs:53-63);
the zstd-compressed payload follows. -/
def writerHeader : List Byte := FILE_MAGIC ++ le64 FORMAT_VERSION

/-- The error kinds of the database module (`error_chain!` block,
database.rs:99-131). -/
inductive DbError where
  | unsupportedFileType (found : List Byte)
  | unsupportedVersion (found : Nat)
  | missingPackageEntry
  | frcode
  | entryParse (entry : List Byte)
  | storePathParse (path : List Byte)
  | io
  | grep
deriving DecidableEq, Repr

/-- The header validation of `Reader::open` (database.rs:148-166): read 4
magic bytes (an I/O error if the file is shorter), compare against `NIXI`,
then read the 8-byte little-endian version and require it to equal 1. -/
def readerOpenCheck (file : List Byte) : Option DbError :=
  if file.length < 4 then some .io
  else if file.take 4 ≠ FILE_MAGIC then some (.unsupportedFileType (file.take 4))
  else if file.length < 12 then some .io
  else if readLe64 (file.drop 4) ≠ FORMAT_VERSION then
    some (.unsupportedVersion (readLe64 (file.drop 4)))
  else none

/-! ## Query construction (`Query::run`, database.rs:229-271) -/

/-- Does the AST contain a literal line terminator?  The grep matcher is
built with `line_terminator(Some(b'\n'))`; building fails if the pattern
can still match the terminator after `\n` is stripped from classes. -/
def hasNlLiteral : Ast → Bool
  | .literal b => b = 10
  | .group a => hasNlLiteral a
  | .star a => hasNlLiteral a
  | .cat l r => hasNlLiteral l || hasNlLiteral r
  | .alt l r => hasNlLiteral l || hasNlLiteral r
  | _ => false

/-- The grep builder strips the line terminator from character classes. -/
def stripNlClasses : Ast → Ast
  | .cls bs => .cls (bs.filter (fun b => b ≠ 10))
  | .group a => .group (stripNlClasses a)
  | .star a => .star (stripNlClasses a)
  | .cat l r => .cat (stripNlClasses l) (stripNlClasses r)
  | .alt l r => .alt (stripNlClasses l) (stripNlClasses r)
  | a => a

/-- `RegexMatcherBuilder::new().line_terminator(Some(b'\n')).multi_line(true)
.build(pattern)`. -/
def buildGrep (a : Ast) : Except DbError Ast :=
  if hasNlLiteral a then .error .grep else .ok (stripNlClasses a)

/-- The fixed auxiliary pattern `^p\0` identifying package records
(database.rs:267). -/
def packageEntryPattern : Ast :=
  .cat (.assertion .startLine) (.cat (.literal 112) (.literal 0))

/-- The matcher configuration of a running query (`ReaderIter` fields other
than the reader state). -/
structure QueryParams where
  pattern : Ast
  exactPattern : Ast
  packageNamePattern : Option Ast
  packageHash : Option (List Byte)
deriving DecidableEq, Repr

/-- `Query::run`: rewrite the anchors of the exact pattern and build the
line-oriented matcher from it (the printed AST re-parses to itself). -/
def queryRun (exact : Ast) (hash : Option (List Byte)) (ppat : Option Ast) :
    Except DbError QueryParams :=
  match buildGrep (replaceAnchors exact) with
  | .error e => .error e
  | .ok pat => .ok ⟨pat, exact, ppat, hash⟩

/-! ## The streaming query engine (`ReaderIter`, database.rs:342-476) -/

/-- The state of the `find_package` closure: the cached
`(package, end_offset)` pair and the `no_more_package` flag
(database.rs:369-370). -/
structure FindPkgState where
  cachedPackage : Option (StorePath × Nat)
  noMorePackage : Bool
deriving DecidableEq, Repr

inductive FindPkgOut where
  | ok (res : Option (StorePath × Nat)) (st : FindPkgState)
  | err (e : DbError)
  | panicked
deriving DecidableEq, Repr

/-- The search half of `find_package` (after the cache test): scan forward
from `itemEnd` for the next `^p\0` line, parse its JSON payload, update the
cache. -/
def findPackageSearch (block : List Byte) (fps : FindPkgState) (itemEnd : Nat) : FindPkgOut :=
  if fps.noMorePackage then .ok none fps
  else
    match nextMatchingLine packageEntryPattern block itemEnd with
    | none => .ok none ⟨fps.cachedPackage, true⟩
    | some (s, e) =>
      match sliceRange block (s + 2) (e - 1) with
      | none => .panicked
      | some json =>
        match storePathFromJson json with
        | none => .err (.storePathParse json)
        | some pkg => .ok (some (pkg, e)) ⟨some (pkg, e), fps.noMorePackage⟩

/-- `find_package(item_end)` (database.rs:371-395). -/
def findPackage (block : List Byte) (fps : FindPkgState) (itemEnd : Nat) : FindPkgOut :=
  match fps.cachedPackage with
  | some (pkg, e) =>
    if itemEnd < e then .ok (some (pkg, e)) fps
    else findPackageSearch block fps itemEnd
  | none => findPackageSearch block fps itemEnd

/-- `should_search_package` (database.rs:398-401): true iff the package name
matches the package-name pattern (if any) and the hash equals the hash
filter (if any). -/
def shouldSearchPackage (prms : QueryParams) (pkg : StorePath) : Bool :=
  (match prms.packageNamePattern with
   | none => true
   | some r => hasMatch false r pkg.name) &&
  (match prms.packageHash with
   | none => true
   | some h => decide (h = pkg.hash))

/-- Outcome of processing (part of) one block: the accumulated `found` and
`found_without_package` lists, an error carrying them (the Rust fields keep
their mutations when `fill_buf` returns `Err`), a slice-bounds panic, or—for
a malformed block not ending in `\n`—the non-termination of the Rust scan
loop. -/
inductive ScanOut where
  | ok (found : List (StorePath × FileTreeEntry)) (fwp : List FileTreeEntry)
  | err (e : DbError) (found : List (StorePath × FileTreeEntry)) (fwp : List FileTreeEntry)
  | panicked
  | diverged
deriving DecidableEq, Repr

/-- Result of one iteration of the scan loop: stop with an outcome, or
continue at a new position with updated `find_package` state and buffers. -/
inductive ScanStepOut where
  | stop (o : ScanOut)
  | cont (pos : Nat) (fps : FindPkgState)
      (found : List (StorePath × FileTreeEntry)) (fwp : List FileTreeEntry)
deriving DecidableEq, Repr

/-- The part of a scan iteration after the package filter passed (or no
package is known yet): decode the entry, verify it against the exact
pattern, resolve its package once more and push it to `found` or
`found_without_package` (database.rs:443-454). -/
def scanBody (prms : QueryParams) (block : List Byte) (e : Nat) (fps : FindPkgState)
    (found : List (StorePath × FileTreeEntry)) (fwp : List FileTreeEntry)
    (entryBytes : List Byte) : ScanStepOut :=
  match FileTreeEntry.decode entryBytes with
  | none => .stop (.err (.entryParse entryBytes) found fwp)
  | some entry =>
    if hasMatch false prms.exactPattern entry.path then
      match findPackage block fps e with
      | .panicked => .stop .panicked
      | .err er => .stop (.err er found fwp)
      | .ok none fps2 => .cont e fps2 found (fwp ++ [entry])
      | .ok (some (pkg, _)) fps2 => .cont e fps2 (found ++ [(pkg, entry)]) fwp
    else
      .cont e fps found fwp

/-- One iteration of the match-processing loop of `fill_buf`
(database.rs:421-455): find the next matching line, slice out the record
body (`&block[mat.start()..mat.end() - 1]`), skip package records, apply the
package filter (skipping to the package's end offset on mismatch), then run
`scanBody`. -/
def scanStep (prms : QueryParams) (block : List Byte) (pos : Nat) (fps : FindPkgState)
    (found : List (StorePath × FileTreeEntry)) (fwp : List FileTreeEntry) : ScanStepOut :=
  match nextMatchingLine prms.pattern block pos with
  | none => .stop (.ok found fwp)
  | some (s, e) =>
    match sliceRange block s (e - 1) with
    | none => .stop .panicked
    | some entryBytes =>
      if hasMatch true packageEntryPattern entryBytes then
        .cont e fps found fwp
      else
        match findPackage block fps e with
        | .panicked => .stop .panicked
        | .err er => .stop (.err er found fwp)
        | .ok (some (pkg, pend)) fps1 =>
          if shouldSearchPackage prms pkg then
            scanBody prms block e fps1 found fwp entryBytes
          else
            .cont pend fps1 found fwp
        | .ok none fps1 => scanBody prms block e fps1 found fwp entryBytes

/-- The match-processing loop of `fill_buf`, one `scanStep` per fuel unit.
`pos` strictly increases at every continuation on a newline-terminated
block, so `block.length + 1` fuel is always enough there; running out of
fuel models the (unreachable on decoder-produced blocks) non-termination of
the Rust loop. -/
def scanBlockLoop (prms : QueryParams) (block : List Byte) :
    Nat → Nat → FindPkgState → List (StorePath × FileTreeEntry) → List FileTreeEntry → ScanOut
  | 0, _, _, _, _ => .diverged
  | fuel + 1, pos, fps, found, fwp =>
    match scanStep prms block pos fps found fwp with
    | .stop o => o
    | .cont pos1 fps1 found1 fwp1 => scanBlockLoop prms block fuel pos1 fps1 found1 fwp1

/-- One iteration of the `while self.found.is_empty()` loop of `fill_buf` on
a decoded block: first drain `found_without_package` against the first
package of the block (database.rs:406-418), then run the scan loop from the
resulting position. -/
def processBlock (prms : QueryParams) (block : List Byte) (fwp0 : List FileTreeEntry) : ScanOut :=
  let fuel := block.length + 1
  if fwp0.isEmpty then
    scanBlockLoop prms block fuel 0 ⟨none, false⟩ [] fwp0
  else
    match findPackage block ⟨none, false⟩ 0 with
    | .panicked => .panicked
    | .err er => .err er [] fwp0
    | .ok none fps1 => scanBlockLoop prms block fuel 0 fps1 [] fwp0
    | .ok (some (pkg, pend)) fps1 =>
      if shouldSearchPackage prms pkg then
        scanBlockLoop prms block fuel 0 fps1 (fwp0.map (fun en => (pkg, en))) []
      else
        scanBlockLoop prms block fuel pend fps1 [] []

/-- The reader-side state of a running query: the blocks the frcode decoder
has yet to produce (its contract: whole records only, `\n`-terminated, one
nonempty block per `decode` call until the end of input) and the `found` /
`found_without_package` buffers of `ReaderIter`. -/
structure IterState where
  blocks : List (List Byte)
  found : List (StorePath × FileTreeEntry)
  foundWithoutPackage : List FileTreeEntry
deriving DecidableEq, Repr

inductive FillOut where
  | ok (st : IterState)
  | err (e : DbError) (st : IterState)
  | panicked
  | diverged
deriving DecidableEq, Repr

/-- The block loop of `fill_buf`, structurally recursing on the remaining
blocks. -/
def fillBufAux (prms : QueryParams) :
    List (List Byte) → List (StorePath × FileTreeEntry) → List FileTreeEntry → FillOut
  | blocks, found, fwp =>
    if found.isEmpty then
      match blocks with
      | [] => .ok ⟨[], found, fwp⟩
      | b :: rest =>
        match processBlock prms b fwp with
        | .panicked => .panicked
        | .diverged => .diverged
        | .err e found1 fwp1 => .err e ⟨rest, found1, fwp1⟩
        | .ok found1 fwp1 => fillBufAux prms rest found1 fwp1
    else .ok ⟨blocks, found, fwp⟩

/-- `fill_buf` (database.rs:345-458): decode blocks until `found` is
nonempty; an empty decode result (no blocks left) returns `Ok(())`
unconditionally — the `found_without_package` buffer is not examined. -/
def fillBuf (prms : QueryParams) (st : IterState) : FillOut :=
  fillBufAux prms st.blocks st.found st.foundWithoutPackage

inductive StepOut where
  | yield (p : StorePath × FileTreeEntry) (st : IterState)
  | yieldErr (e : DbError) (st : IterState)
  | done (st : IterState)
  | panicked
  | diverged
deriving DecidableEq, Repr

/-- `next_match` + `Iterator::next` (database.rs:461-476): fill the buffer,
pop the last element of `found`; errors become the yielded item. -/
def readerIterNext (prms : QueryParams) (st : IterState) : StepOut :=
  match fillBuf prms st with
  | .panicked => .panicked
  | .diverged => .diverged
  | .err e st1 => .yieldErr e st1
  | .ok st1 =>
    match st1.found.getLast? with
    | none => .done st1
    | some p => .yield p ⟨st1.blocks, st1.found.dropLast, st1.foundWithoutPackage⟩

/-- Drive the iterator `n` steps, collecting every successfully yielded pair
(continuing past yielded errors, as a caller that keeps calling `next`
would). -/
def yieldsUpTo (prms : QueryParams) : Nat → IterState → List (StorePath × FileTreeEntry)
  | 0, _ => []
  | n + 1, st =>
    match readerIterNext prms st with
    | .yield p st1 => p :: yieldsUpTo prms n st1
    | .yieldErr _ st1 => yieldsUpTo prms n st1
    | _ => []

/-- Drive the iterator to completion with `n` steps of fuel: `some` list of
yielded pairs if it reaches `done` cleanly within the fuel. -/
def runIter (prms : QueryParams) : Nat → IterState → Option (List (StorePath × FileTreeEntry))
  | 0, _ => none
  | n + 1, st =>
    match readerIterNext prms st with
    | .done _ => some []
    | .yield p st1 => (runIter prms n st1).map (fun l => p :: l)
    | _ => none

/-- Reference accumulation of a whole run at the `fill_buf` level: process
every block in order, concatenating the per-block `found` lists.  The final
`found_without_package` is returned alongside (and, as in the code, simply
dropped at end of stream). -/
def collectBlocks (prms : QueryParams) :
    List (List Byte) → List FileTreeEntry → ScanOut
  | [], fwp => .ok [] fwp
  | b :: rest, fwp =>
    match processBlock prms b fwp with
    | .ok found fwp1 =>
      match collectBlocks prms rest fwp1 with
      | .ok fs fwp2 => .ok (found ++ fs) fwp2
      | .err e fs fwp2 => .err e (found ++ fs) fwp2
      | x => x
    | x => x

/-- The delivery invariant of the engine: every buffered pair and every
deferred entry has a path matching the exact (user-supplied) pattern. -/
def pathsMatchExact (prms : QueryParams) (found : List (StorePath × FileTreeEntry))
    (fwp : List FileTreeEntry) : Prop :=
  (∀ p ∈ found, hasMatch false prms.exactPattern p.2.path = true) ∧
  (∀ en ∈ fwp, hasMatch false prms.exactPattern en.path = true)

def scanOutExactOk (prms : QueryParams) : ScanOut → Prop
  | .ok f w => pathsMatchExact prms f w
  | .err _ f w => pathsMatchExact prms f w
  | _ => True

def scanStepExactOk (prms : QueryParams) : ScanStepOut → Prop
  | .stop o => scanOutExactOk prms o
  | .cont _ _ f w => pathsMatchExact prms f w

/-! ## Concrete fixtures used by the end-to-end theorems

Byte strings: `"/bin/foo"` is `[47,98,105,110,47,102,111,111]`, `"bin"` is
`[98,105,110]`, and so on. -/

/-- A package `{hash: "aaaa", name: "demo"}`. -/
def pkgDemo : StorePath := ⟨[97, 97, 97, 97], [100, 101, 109, 111], ⟨[100], [111], true⟩⟩

/-- The entry `/bin/foo`, a regular non-executable file of size 0. -/
def entryFoo : FileTreeEntry := ⟨[47, 98, 105, 110, 47, 102, 111, 111], .regular 0 false⟩

def treeFoo : FileTree := ⟨[entryFoo]⟩

/-- The regex `bin`. -/
def patBin : Ast := .cat (.literal 98) (.cat (.literal 105) (.literal 110))

/-- The regex `/bin`. -/
def patSlashBin : Ast := .cat (.literal 47) patBin

/-- The query parameters `Query::run` builds for the regex `bin` with no
filters (the rewrite leaves an anchor-free pattern unchanged). -/
def binParams : QueryParams := ⟨patBin, patBin, none, none⟩

/-- The query parameters for the universal regex `.*` with no filters. -/
def dotStarParams : QueryParams := ⟨.star .dot, .star .dot, none, none⟩

/-- A second package `{hash: "bbbb", name: "x"}`. -/
def pkgX2 : StorePath := ⟨[98, 98, 98, 98], [120], ⟨[120], [111], true⟩⟩

/-- The entry `/bin/tool`. -/
def entryTool : FileTreeEntry :=
  ⟨[47, 98, 105, 110, 47, 116, 111, 111, 108], .regular 0 false⟩

/-- Two `add` calls, each contributing `/bin/tool`, for the filter
scenarios. -/
def twoPkgStream : List Byte :=
  writerAdd pkgDemo ⟨[entryTool]⟩ [] ++ writerAdd pkgX2 ⟨[entryTool]⟩ []

/-- A block whose package record carries unparseable JSON (`p\0junk\n`). -/
def badPkgBlock : List Byte :=
  entryRecord entryFoo ++ (112 :: 0 :: ([106, 117, 110, 107] ++ [10]))

/-- A one-byte-field package, to keep kernel evaluation of the `.*` scan
small. -/
def pkgSmall : StorePath := ⟨[97], [100], ⟨[100], [111], true⟩⟩

/-- The entry `/`, a regular file. -/
def entrySlash : FileTreeEntry := ⟨[47], .regular 0 false⟩

/-! ## Filter-composition machinery (C6)

The same query with the package filters removed: only the
`package_name_pattern` and `package_hash` fields differ, so both runs use
the same matcher, exact pattern and `find_package` behaviour. -/

def unfiltered (prms : QueryParams) : QueryParams :=
  ⟨prms.pattern, prms.exactPattern, none, none⟩

/-- The geometry `find_package` guarantees for a cached package end offset
`pend`: the line ending at `pend` starts with `p\0` at `sp`, contains no
interior newline, begins right after a newline (or at the block start), and
ends with the block's newline (or at the block end). -/
def pkgLineGeom (block : List Byte) (pend : Nat) : Prop :=
  ∃ sp, sp + 2 ≤ pend ∧ block[sp]? = some 112 ∧ block[sp + 1]? = some 0 ∧
    (∀ k, sp ≤ k → k < pend - 1 → block[k]? ≠ some 10) ∧
    (sp = 0 ∨ block[sp - 1]? = some 10) ∧
    (block[pend - 1]? = some 10 ∨ pend = block.length)

/-- Invariant of the `find_package` cache along a scan: any cached end
offset is in range and sits at the end of a real package line. -/
def fpsInv (block : List Byte) (fps : FindPkgState) : Prop :=
  ∀ pkg pe, fps.cachedPackage = some (pkg, pe) →
    pe ≤ block.length ∧ pkgLineGeom block pe

/-! # Claims -/

/-- **C3** (confirmed).  `Reader::open` on a file whose first 4 bytes are not
`NIXI` fails with `UnsupportedFileType`; on correct magic with version ≠ 1 it
fails with `UnsupportedVersion`; and `Writer::create` writes exactly the
magic followed by the little-endian version 1, so a freshly created database
passes both checks whatever the compressed payload is. -/
theorem c3_container_framing :
    (∀ f : List Byte, 4 ≤ f.length → f.take 4 ≠ FILE_MAGIC →
      readerOpenCheck f = some (.unsupportedFileType (f.take 4))) ∧
    (∀ f : List Byte, 12 ≤ f.length → f.take 4 = FILE_MAGIC →
      readLe64 (f.drop 4) ≠ FORMAT_VERSION →
      readerOpenCheck f = some (.unsupportedVersion (readLe64 (f.drop 4)))) ∧
    writerHeader = FILE_MAGIC ++ le64 1 ∧
    (∀ payload : List Byte, readerOpenCheck (writerHeader ++ payload) = none) := by
  refine ⟨?_, ?_, rfl, ?_⟩
  · intro f h4 hm
    unfold readerOpenCheck
    rw [if_neg (by omega), if_pos hm]
  · intro f h12 hm hv
    unfold readerOpenCheck
    rw [if_neg (by omega), if_neg (by simp [hm]), if_neg (by omega), if_pos hv]
  · intro payload
    have hw : writerHeader = [78, 73, 88, 73, 1, 0, 0, 0, 0, 0, 0, 0] := by rfl
    rw [hw]
    simp only [List.cons_append, List.nil_append]
    unfold readerOpenCheck
    rw [if_neg (by simp), if_neg (by simp [FILE_MAGIC]), if_neg (by simp), if_neg (by simp [readLe64, FORMAT_VERSION])]

/-- Witness for C3 at concrete inputs: a wrong-magic file, a version-2 file,
and a freshly written header followed by an arbitrary payload. -/
theorem c3_container_framing_witness :
    readerOpenCheck [78, 73, 88, 74, 0, 0, 0, 0, 0, 0, 0, 0] =
      some (.unsupportedFileType [78, 73, 88, 74]) ∧
    readerOpenCheck [78, 73, 88, 73, 2, 0, 0, 0, 0, 0, 0, 0] =
      some (.unsupportedVersion 2) ∧
    readerOpenCheck (writerHeader ++ [1, 2, 3]) = none :=
  ⟨c3_container_framing.1 _ (by decide) (by decide),
   c3_container_framing.2.1 [78, 73, 88, 73, 2, 0, 0, 0, 0, 0, 0, 0]
     (by decide) (by decide) (by decide),
   c3_container_framing.2.2.2 [1, 2, 3]⟩

/-- **C2** (code bug).  On the failing input — a stream whose final block
holds a matching file record with no following package record — `fill_buf`
hits the empty decode result with `found_without_package = [entryFoo]` and
returns `Ok(())` (database.rs:358-360), so the iterator reports successful
exhaustion instead of the `MissingPackageEntry` error the spec (and the
error type's own description, database.rs:109-112) require. -/
theorem c2_missing_package_entry_not_raised :
    queryRun patBin none none = .ok binParams ∧
    readerIterNext binParams ⟨[entryRecord entryFoo], [], []⟩ = .done ⟨[], [], [entryFoo]⟩ :=
  ⟨rfl, by decide⟩

/-- **C1** (code bug).  Evaluating the code at the failing input: one `add`
of a package with the single entry `/` and empty filter prefix, then a query
with the universal regex `.*`.  After scanning the final record the loop
calls `next_matching_line` at the end of the block; `.*` matches the empty
suffix, the returned "line" is `(len, len)`, and the record slice
`&block[len..len - 1]` panics, so no pair is ever yielded. -/
theorem c1_universal_query_panics :
    queryRun (.star .dot) none none = .ok dotStarParams ∧
    fillBuf dotStarParams ⟨[writerStream [(pkgSmall, ⟨[entrySlash]⟩, [])]], [], []⟩ =
      .panicked ∧
    runIter dotStarParams 5 ⟨[writerStream [(pkgSmall, ⟨[entrySlash]⟩, [])]], [], []⟩ =
      none :=
  ⟨rfl, by decide, by decide⟩

/-- With no blocks left, the block loop of `fill_buf` is the identity. -/
theorem fillBufAux_nil (prms : QueryParams) (found : List (StorePath × FileTreeEntry))
    (fwp : List FileTreeEntry) : fillBufAux prms [] found fwp = .ok ⟨[], found, fwp⟩ := by
  unfold fillBufAux
  by_cases h : found.isEmpty <;> simp [h]

/-- With no blocks left, `fill_buf` is the identity. -/
theorem fillBuf_nil (prms : QueryParams) (found : List (StorePath × FileTreeEntry))
    (fwp : List FileTreeEntry) : fillBuf prms ⟨[], found, fwp⟩ = .ok ⟨[], found, fwp⟩ :=
  fillBufAux_nil prms found fwp

/-- Once `fill_buf` has settled on a state with no blocks left, iterating the
reader yields exactly the `found` buffer back to front. -/
theorem runIter_drained (prms : QueryParams) :
    ∀ (n : Nat) (st st1 : IterState), fillBuf prms st = .ok st1 → st1.blocks = [] →
      st1.found.length < n → runIter prms n st = some st1.found.reverse := by
  intro n
  induction n with
  | zero => intro st st1 _ _ h; omega
  | succ n ih =>
    intro st st1 hfill hblocks hlen
    obtain ⟨blocks1, found1, fwp1⟩ := st1
    simp only at hblocks hlen
    subst hblocks
    match hlast : found1.getLast? with
    | none =>
      have : found1 = [] := by simpa using hlast
      subst this
      simp [runIter, readerIterNext, hfill, hlast]
    | some p =>
      have hne : found1 ≠ [] := by
        intro h; subst h; simp at hlast
      have hsplit : found1.dropLast ++ [found1.getLast hne] = found1 :=
        List.dropLast_append_getLast hne
      have hp : found1.getLast hne = p := by
        have h2 := List.getLast?_eq_getLast found1 hne
        rw [hlast] at h2
        exact (Option.some_injective _ h2).symm
      have hlt : found1.dropLast.length < n := by
        have h1 : 0 < found1.length := List.length_pos.mpr hne
        rw [List.length_dropLast]
        omega
      have hrec := ih ⟨[], found1.dropLast, fwp1⟩ ⟨[], found1.dropLast, fwp1⟩
        (fillBuf_nil prms _ _) rfl hlt
      have hstep : readerIterNext prms st = .yield p ⟨[], found1.dropLast, fwp1⟩ := by
        simp [readerIterNext, hfill, hlast]
      have hmain : runIter prms (n + 1) st =
          (runIter prms n ⟨[], found1.dropLast, fwp1⟩).map (fun l => p :: l) := by
        simp [runIter, hstep]
      rw [hmain, hrec]
      have hrev : found1.reverse = p :: found1.dropLast.reverse := by
        conv_lhs => rw [← hsplit]
        simp [hp]
      simp [hrev]

/-- **C9** (confirmed).  Intra-block order reversal: a scan iteration only
ever appends to `found`; `next_match` removes from its end; hence a query
over a single block yields that block's matches in the reverse of the order
the scan produced them, as the concrete two-package demonstration shows (on
disk `pkgDemo` precedes `pkgX2`; the iterator yields `pkgX2` first). -/
theorem c9_intra_block_order_reversal :
    (∀ prms block pos fps found fwp pos1 fps1 found1 fwp1,
      scanStep prms block pos fps found fwp = .cont pos1 fps1 found1 fwp1 →
      found1 = found ∨ ∃ p, found1 = found ++ [p]) ∧
    (∀ (prms : QueryParams) (st st1 : IterState), fillBuf prms st = .ok st1 →
      ∀ p, st1.found.getLast? = some p →
      readerIterNext prms st =
        .yield p ⟨st1.blocks, st1.found.dropLast, st1.foundWithoutPackage⟩) ∧
    (∀ (prms : QueryParams) (b : List Byte) found fwp (n : Nat),
      processBlock prms b [] = .ok found fwp → found.length < n →
      runIter prms n ⟨[b], [], []⟩ = some found.reverse) ∧
    collectBlocks binParams [twoPkgStream] [] =
      .ok [(pkgDemo, entryTool), (pkgX2, entryTool)] [] ∧
    runIter binParams 5 ⟨[twoPkgStream], [], []⟩ =
      some [(pkgX2, entryTool), (pkgDemo, entryTool)] := by
  refine ⟨?_, ?_, ?_, by decide, by decide⟩
  · intro prms block pos fps found fwp pos1 fps1 found1 fwp1 h
    unfold scanStep scanBody at h
    repeat' split at h
    all_goals try simp_all
    all_goals exact Or.inr ⟨_, _, h.2.2.1.symm⟩
  · intro prms st st1 hfill p hlast
    simp [readerIterNext, hfill, hlast]
  · intro prms b found fwp n hproc hlen
    have hfill : fillBuf prms ⟨[b], [], []⟩ = .ok ⟨[], found, fwp⟩ := by
      show fillBufAux prms [b] [] [] = _
      unfold fillBufAux
      simp only [List.isEmpty_nil, if_true]
      rw [hproc]
      exact fillBufAux_nil prms found fwp
    exact runIter_drained prms n _ ⟨[], found, fwp⟩ hfill rfl hlen

/-- Witness for C9's quantified parts at concrete inputs. -/
theorem c9_intra_block_order_reversal_witness :
    runIter binParams 3 ⟨[twoPkgStream], [], []⟩ =
      some [(pkgDemo, entryTool), (pkgX2, entryTool)].reverse :=
  c9_intra_block_order_reversal.2.2.1 binParams twoPkgStream
    [(pkgDemo, entryTool), (pkgX2, entryTool)] [] 3 (by decide) (by decide)

/-- **C8** counterexample: after the iterator yields the `StorePathParse`
error from the corrupt first block, the very next call to `next` yields a
further item (the match from the second block) rather than `None`. -/
theorem c8_error_then_more_items :
    readerIterNext binParams ⟨[badPkgBlock, writerAdd pkgDemo treeFoo []], [], []⟩ =
      .yieldErr (.storePathParse [106, 117, 110, 107])
        ⟨[writerAdd pkgDemo treeFoo []], [], []⟩ ∧
    readerIterNext binParams ⟨[writerAdd pkgDemo treeFoo []], [], []⟩ =
      .yield (pkgDemo, entryFoo) ⟨[], [], []⟩ := by
  exact ⟨by decide, by decide⟩

/-- An error item can only come from `fill_buf` returning that error. -/
theorem fillBuf_of_yieldErr (prms : QueryParams) (st st1 : IterState) (e : DbError)
    (h : readerIterNext prms st = .yieldErr e st1) : fillBuf prms st = .err e st1 := by
  unfold readerIterNext at h
  split at h
  any_goals simp_all
  split at h <;> simp_all

/-- **C8** (corrected).  Any error arising in `next_match` is yielded by
`next()` as its item, and conversely an error item only arises that way —
but the iterator is not fused: as the counterexample shows, a subsequent
`next()` resumes with the remaining blocks and may yield further items. -/
theorem c8_errors_surface_as_items :
    (∀ (prms : QueryParams) (st st1 : IterState) (e : DbError),
      fillBuf prms st = .err e st1 → readerIterNext prms st = .yieldErr e st1) ∧
    (∀ (prms : QueryParams) (st st1 : IterState) (e : DbError),
      readerIterNext prms st = .yieldErr e st1 → fillBuf prms st = .err e st1) := by
  constructor
  · intro prms st st1 e h
    simp [readerIterNext, h]
  · exact fillBuf_of_yieldErr

/-- Witness for C8's amended statement on the corrupt-package block. -/
theorem c8_errors_surface_as_items_witness :
    readerIterNext binParams ⟨[badPkgBlock], [], []⟩ =
      .yieldErr (.storePathParse [106, 117, 110, 107]) ⟨[], [], []⟩ :=
  c8_errors_surface_as_items.1 binParams ⟨[badPkgBlock], [], []⟩ ⟨[], [], []⟩
    (.storePathParse [106, 117, 110, 107]) (by decide)

/-- One scan iteration preserves the delivery invariant: pushes to `found`
happen only after the exact-pattern check succeeded, and pushes to
`found_without_package` likewise. -/
theorem scanStep_exact (prms : QueryParams) (block : List Byte) (pos : Nat)
    (fps : FindPkgState) (found : List (StorePath × FileTreeEntry))
    (fwp : List FileTreeEntry) (h : pathsMatchExact prms found fwp) :
    scanStepExactOk prms (scanStep prms block pos fps found fwp) := by
  obtain ⟨hf, hw⟩ := h
  unfold scanStep scanBody
  repeat' split
  all_goals simp_all [scanStepExactOk, scanOutExactOk, pathsMatchExact]
  all_goals try assumption
  all_goals try refine ⟨?_, ?_⟩
  all_goals try assumption
  all_goals first
    | (intro a b hab
       rcases hab with hab | ⟨rfl, rfl⟩
       · exact hf a b hab
       · assumption)
    | (intro en hen
       rcases hen with hen | rfl
       · exact hw en hen
       · assumption)

/-- The scan loop preserves the delivery invariant. -/
theorem scanBlockLoop_exact (prms : QueryParams) (block : List Byte) :
    ∀ (fuel pos : Nat) (fps : FindPkgState) (found : List (StorePath × FileTreeEntry))
      (fwp : List FileTreeEntry), pathsMatchExact prms found fwp →
      scanOutExactOk prms (scanBlockLoop prms block fuel pos fps found fwp) := by
  intro fuel
  induction fuel with
  | zero =>
    intro pos fps found fwp _
    simp [scanBlockLoop, scanOutExactOk]
  | succ n ih =>
    intro pos fps found fwp h
    have hs := scanStep_exact prms block pos fps found fwp h
    rcases hstep : scanStep prms block pos fps found fwp with o | ⟨p1, f1, fd1, fw1⟩ <;>
      rw [hstep] at hs
    · simpa [scanBlockLoop, hstep] using hs
    · simpa [scanBlockLoop, hstep] using ih p1 f1 fd1 fw1 hs

/-- `processBlock` establishes the delivery invariant from the deferred
buffer's. -/
theorem processBlock_exact (prms : QueryParams) (block : List Byte)
    (fwp0 : List FileTreeEntry)
    (h : ∀ en ∈ fwp0, hasMatch false prms.exactPattern en.path = true) :
    scanOutExactOk prms (processBlock prms block fwp0) := by
  unfold processBlock
  split
  · exact scanBlockLoop_exact prms block _ 0 _ [] fwp0 ⟨by simp, h⟩
  · split
    · simp [scanOutExactOk]
    · exact ⟨by simp, h⟩
    · exact scanBlockLoop_exact prms block _ 0 _ [] fwp0 ⟨by simp, h⟩
    · split
      · apply scanBlockLoop_exact
        refine ⟨?_, by simp⟩
        intro p hp
        simp only [List.mem_map] at hp
        obtain ⟨en, hen, rfl⟩ := hp
        exact h en hen
      · exact scanBlockLoop_exact prms block _ _ _ [] [] ⟨by simp, by simp⟩

/-- The block loop of `fill_buf` preserves the delivery invariant, both on
success and on a surfaced error. -/
theorem fillBufAux_exact (prms : QueryParams) :
    ∀ (blocks : List (List Byte)) (found : List (StorePath × FileTreeEntry))
      (fwp : List FileTreeEntry), pathsMatchExact prms found fwp →
      ∀ st1 : IterState,
        (fillBufAux prms blocks found fwp = .ok st1 ∨
          ∃ e, fillBufAux prms blocks found fwp = .err e st1) →
        pathsMatchExact prms st1.found st1.foundWithoutPackage := by
  intro blocks
  induction blocks with
  | nil =>
    intro found fwp h st1 hcase
    have hnil : fillBufAux prms [] found fwp = .ok ⟨[], found, fwp⟩ :=
      fillBufAux_nil prms found fwp
    rcases hcase with hc | ⟨e, hc⟩ <;> rw [hnil] at hc
    · injection hc with hc1
      subst hc1
      exact h
    · exact absurd hc (by simp)
  | cons b rest ih =>
    intro found fwp h st1 hcase
    match found, h with
    | [], h =>
      have hpb := processBlock_exact prms b fwp h.2
      have hstep : fillBufAux prms (b :: rest) [] fwp =
          (match processBlock prms b fwp with
           | .panicked => .panicked
           | .diverged => .diverged
           | .err e f1 w1 => .err e ⟨rest, f1, w1⟩
           | .ok f1 w1 => fillBufAux prms rest f1 w1) := rfl
      cases hpb' : processBlock prms b fwp with
      | ok f1 w1 =>
        rw [hpb'] at hpb
        rw [hstep, hpb'] at hcase
        exact ih f1 w1 hpb st1 hcase
      | err e1 f1 w1 =>
        rw [hpb'] at hpb
        rw [hstep, hpb'] at hcase
        rcases hcase with hc | ⟨e, hc⟩
        · exact absurd hc (by simp)
        · injection hc with he hst
          subst hst
          exact hpb
      | panicked =>
        rw [hstep, hpb'] at hcase
        rcases hcase with hc | ⟨e, hc⟩ <;> exact absurd hc (by simp)
      | diverged =>
        rw [hstep, hpb'] at hcase
        rcases hcase with hc | ⟨e, hc⟩ <;> exact absurd hc (by simp)
    | f0 :: fs, h =>
      have hstep : fillBufAux prms (b :: rest) (f0 :: fs) fwp =
          .ok ⟨b :: rest, f0 :: fs, fwp⟩ := rfl
      rcases hcase with hc | ⟨e, hc⟩ <;> rw [hstep] at hc
      · injection hc with hc1
        subst hc1
        exact h
      · exact absurd hc (by simp)

/-- Every pair the iterator ever yields from an invariant-satisfying state
has an exactly-matching path. -/
theorem yieldsUpTo_exact (prms : QueryParams) :
    ∀ (n : Nat) (st : IterState),
      pathsMatchExact prms st.found st.foundWithoutPackage →
      ∀ p ∈ yieldsUpTo prms n st, hasMatch false prms.exactPattern p.2.path = true := by
  intro n
  induction n with
  | zero => intro st _ p hp; simp [yieldsUpTo] at hp
  | succ n ih =>
    intro st h p hp
    unfold yieldsUpTo at hp
    cases hnext : readerIterNext prms st with
    | yield q st2 =>
      rw [hnext] at hp
      simp only [List.mem_cons] at hp
      have hparts : ∃ st1 : IterState, fillBuf prms st = .ok st1 ∧
          st1.found.getLast? = some q ∧
          st2 = ⟨st1.blocks, st1.found.dropLast, st1.foundWithoutPackage⟩ := by
        have hnext1 := hnext
        unfold readerIterNext at hnext1
        cases hfill : fillBuf prms st with
        | ok st1 =>
          simp only [hfill] at hnext1
          cases hlast : st1.found.getLast? with
          | none => simp only [hlast] at hnext1; exact absurd hnext1 (by simp)
          | some q1 =>
            simp only [hlast, StepOut.yield.injEq] at hnext1
            exact ⟨st1, rfl, by rw [hlast, hnext1.1], hnext1.2.symm⟩
        | err e st1 => simp only [hfill] at hnext1; exact absurd hnext1 (by simp)
        | panicked => simp only [hfill] at hnext1; exact absurd hnext1 (by simp)
        | diverged => simp only [hfill] at hnext1; exact absurd hnext1 (by simp)
      obtain ⟨st1, hfill, hlast, hst2⟩ := hparts
      have h1 : pathsMatchExact prms st1.found st1.foundWithoutPackage :=
        fillBufAux_exact prms st.blocks st.found st.foundWithoutPackage h st1
          (Or.inl hfill)
      rcases hp with rfl | hp
      · have hne : st1.found ≠ [] := by
          intro hx
          rw [hx] at hlast
          simp at hlast
        have h2 := List.getLast?_eq_getLast st1.found hne
        rw [hlast] at h2
        have h3 : p = st1.found.getLast hne := Option.some_injective _ h2
        rw [h3]
        exact h1.1 _ (List.getLast_mem hne)
      · refine ih st2 ?_ p hp
        rw [hst2]
        refine ⟨?_, h1.2⟩
        intro q1 hq1
        exact h1.1 q1 (List.dropLast_subset _ hq1)
    | yieldErr e st2 =>
      rw [hnext] at hp
      have hfill : fillBuf prms st = .err e st2 :=
        fillBuf_of_yieldErr prms st st2 e hnext
      have h1 : pathsMatchExact prms st2.found st2.foundWithoutPackage :=
        fillBufAux_exact prms st.blocks st.found st.foundWithoutPackage h st2
          (Or.inr ⟨e, hfill⟩)
      exact ih st2 h1 p hp
    | done st2 => rw [hnext] at hp; simp at hp
    | panicked => rw [hnext] at hp; simp at hp
    | diverged => rw [hnext] at hp; simp at hp

/-- **C7** (confirmed).  No false positives are delivered: every pair the
query iterator ever yields — resolved immediately or deferred through
`found_without_package` across a block boundary — has a path matching the
original user-supplied regex `exact_pattern`. -/
theorem c7_no_false_positives (prms : QueryParams) (blocks : List (List Byte)) (n : Nat)
    (p : StorePath × FileTreeEntry) (hp : p ∈ yieldsUpTo prms n ⟨blocks, [], []⟩) :
    hasMatch false prms.exactPattern p.2.path = true :=
  yieldsUpTo_exact prms n ⟨blocks, [], []⟩ ⟨by simp, by simp⟩ p hp

/-- Witness for C7 on a concrete one-package database. -/
theorem c7_no_false_positives_witness :
    (pkgDemo, entryFoo) ∈ yieldsUpTo binParams 2 ⟨[writerAdd pkgDemo treeFoo []], [], []⟩ ∧
    hasMatch false binParams.exactPattern entryFoo.path = true :=
  ⟨by decide,
   c7_no_false_positives binParams [writerAdd pkgDemo treeFoo []] 2 (pkgDemo, entryFoo)
     (by decide)⟩

/-- A decoded record starting with `p\0` is matched by the package-entry
pattern `^p\0`. -/
theorem packageEntryPattern_matches (rest : List Byte) :
    hasMatch true packageEntryPattern (112 :: 0 :: rest) = true := by
  unfold hasMatch
  rw [List.any_eq_true]
  refine ⟨0, by simp, ?_⟩
  simp [endsAt, packageEntryPattern, assertHolds]

/-- **C5** (confirmed).  Cross-block package resolution: when a matching file
record `body\n` is the last matching record of its block and its owning
package record `p\0json\n` is the next block, the query yields exactly one
pair for it — neither lost nor duplicated — and the attached `StorePath` is
the one parsed from that next package record. -/
theorem c5_cross_block_resolution
    (prms : QueryParams) (body json : List Byte) (entry : FileTreeEntry) (pkg : StorePath)
    (hmatch : nextMatchingLine prms.pattern (body ++ [10]) 0 = some (0, body.length + 1))
    (hnomore : nextMatchingLine prms.pattern (body ++ [10]) (body.length + 1) = none)
    (hnotpkg : hasMatch true packageEntryPattern body = false)
    (hnopkgline : nextMatchingLine packageEntryPattern (body ++ [10]) (body.length + 1) = none)
    (hdecode : FileTreeEntry.decode body = some entry)
    (hexact : hasMatch false prms.exactPattern entry.path = true)
    (hpkgline : nextMatchingLine packageEntryPattern (112 :: 0 :: (json ++ [10])) 0 =
      some (0, json.length + 3))
    (hjson : storePathFromJson json = some pkg)
    (hshould : shouldSearchPackage prms pkg = true)
    (hb2 : nextMatchingLine prms.pattern (112 :: 0 :: (json ++ [10])) 0 = none ∨
      nextMatchingLine prms.pattern (112 :: 0 :: (json ++ [10])) 0 =
        some (0, json.length + 3))
    (hb2end : nextMatchingLine prms.pattern (112 :: 0 :: (json ++ [10]))
      (json.length + 3) = none) :
    collectBlocks prms [body ++ [10], 112 :: 0 :: (json ++ [10])] [] =
      .ok [(pkg, entry)] [] ∧
    runIter prms 2 ⟨[body ++ [10], 112 :: 0 :: (json ++ [10])], [], []⟩ =
      some [(pkg, entry)] := by
  have hslice1 : sliceRange (body ++ [10]) 0 (body.length + 1 - 1) = some body := by
    unfold sliceRange
    rw [if_pos (by simp)]
    show some ((body ++ [10]).take body.length) = some body
    rw [List.take_left]
  have hstep1 : scanStep prms (body ++ [10]) 0 ⟨none, false⟩ [] [] =
      .cont (body.length + 1) ⟨none, true⟩ [] [entry] := by
    unfold scanStep scanBody findPackage findPackageSearch
    rw [hmatch]
    simp only [hslice1, hnotpkg, Bool.false_eq_true, if_false, hnopkgline, hdecode, hexact,
      if_true, List.nil_append]
  have hstep1b : scanStep prms (body ++ [10]) (body.length + 1) ⟨none, true⟩ [] [entry] =
      .stop (.ok [] [entry]) := by
    unfold scanStep
    rw [hnomore]
  have hpb1 : processBlock prms (body ++ [10]) [] = .ok [] [entry] := by
    unfold processBlock
    simp only [List.isEmpty_nil, if_true, List.length_append, List.length_cons,
      List.length_nil]
    rw [show body.length + (0 + 1) + 1 = (body.length + 1) + 1 from by omega]
    simp only [scanBlockLoop, hstep1, hstep1b]
  have hslice2 : sliceRange (112 :: 0 :: (json ++ [10])) 2 (json.length + 3 - 1) =
      some json := by
    have hcond : 2 ≤ json.length + 3 - 1 ∧
        json.length + 3 - 1 ≤ (112 :: 0 :: (json ++ [10])).length := by
      simp only [List.length_cons, List.length_append, List.length_nil]
      omega
    unfold sliceRange
    rw [if_pos hcond]
    rw [show json.length + 3 - 1 - 2 = json.length from by omega]
    rw [show List.drop 2 (112 :: 0 :: (json ++ [10])) = json ++ [10] from rfl]
    rw [List.take_left]
  have hfp2 : findPackage (112 :: 0 :: (json ++ [10])) ⟨none, false⟩ 0 =
      .ok (some (pkg, json.length + 3)) ⟨some (pkg, json.length + 3), false⟩ := by
    unfold findPackage findPackageSearch
    rw [hpkgline]
    simp only [hslice2, hjson]
    rfl
  have hslice3 : sliceRange (112 :: 0 :: (json ++ [10])) 0 (json.length + 3 - 1) =
      some (112 :: 0 :: json) := by
    have hcond : 0 ≤ json.length + 3 - 1 ∧
        json.length + 3 - 1 ≤ (112 :: 0 :: (json ++ [10])).length := by
      simp only [List.length_cons, List.length_append, List.length_nil]
      omega
    unfold sliceRange
    rw [if_pos hcond]
    rw [show json.length + 3 - 1 - 0 = json.length + 1 + 1 from by omega]
    rw [List.drop_zero, List.take_succ_cons, List.take_succ_cons, List.take_left]
  have hloop2 : ∀ fuel : Nat,
      scanBlockLoop prms (112 :: 0 :: (json ++ [10])) (fuel + 1 + 1) 0
        ⟨some (pkg, json.length + 3), false⟩ [(pkg, entry)] [] = .ok [(pkg, entry)] [] := by
    intro fuel
    rcases hb2 with hb2n | hb2s
    · have hstop : scanStep prms (112 :: 0 :: (json ++ [10])) 0
          ⟨some (pkg, json.length + 3), false⟩ [(pkg, entry)] [] =
          .stop (.ok [(pkg, entry)] []) := by
        unfold scanStep
        rw [hb2n]
      simp only [scanBlockLoop, hstop]
    · have hstep2 : scanStep prms (112 :: 0 :: (json ++ [10])) 0
          ⟨some (pkg, json.length + 3), false⟩ [(pkg, entry)] [] =
          .cont (json.length + 3) ⟨some (pkg, json.length + 3), false⟩ [(pkg, entry)] [] := by
        unfold scanStep
        rw [hb2s]
        simp only [hslice3, packageEntryPattern_matches, if_true]
      have hstep2b : scanStep prms (112 :: 0 :: (json ++ [10])) (json.length + 3)
          ⟨some (pkg, json.length + 3), false⟩ [(pkg, entry)] [] =
          .stop (.ok [(pkg, entry)] []) := by
        unfold scanStep
        rw [hb2end]
      simp only [scanBlockLoop, hstep2, hstep2b]
  have hpb2 : processBlock prms (112 :: 0 :: (json ++ [10])) [entry] =
      .ok [(pkg, entry)] [] := by
    unfold processBlock
    simp only [List.isEmpty_cons, Bool.false_eq_true, if_false, hfp2, hshould, if_true,
      List.map_cons, List.map_nil]
    rw [show (112 :: 0 :: (json ++ [10])).length + 1 = ((112 :: 0 :: (json ++ [10])).length - 1) + 1 + 1 from by simp]
    exact hloop2 _
  have hcol : collectBlocks prms [body ++ [10], 112 :: 0 :: (json ++ [10])] [] =
      .ok [(pkg, entry)] [] := by
    simp only [collectBlocks, hpb1, hpb2, List.append_nil, List.nil_append]
  refine ⟨hcol, ?_⟩
  have hfill : fillBuf prms ⟨[body ++ [10], 112 :: 0 :: (json ++ [10])], [], []⟩ =
      .ok ⟨[], [(pkg, entry)], []⟩ := by
    show fillBufAux prms [body ++ [10], 112 :: 0 :: (json ++ [10])] [] [] = _
    have hc1 : fillBufAux prms [body ++ [10], 112 :: 0 :: (json ++ [10])] [] [] =
        (match processBlock prms (body ++ [10]) [] with
         | .panicked => FillOut.panicked
         | .diverged => FillOut.diverged
         | .err e f1 w1 => FillOut.err e ⟨[112 :: 0 :: (json ++ [10])], f1, w1⟩
         | .ok f1 w1 => fillBufAux prms [112 :: 0 :: (json ++ [10])] f1 w1) := rfl
    have hc2 : fillBufAux prms [112 :: 0 :: (json ++ [10])] [] [entry] =
        (match processBlock prms (112 :: 0 :: (json ++ [10])) [entry] with
         | .panicked => FillOut.panicked
         | .diverged => FillOut.diverged
         | .err e f1 w1 => FillOut.err e ⟨[], f1, w1⟩
         | .ok f1 w1 => fillBufAux prms [] f1 w1) := rfl
    rw [hc1, hpb1]
    show fillBufAux prms [112 :: 0 :: (json ++ [10])] [] [entry] = _
    rw [hc2, hpb2]
    show fillBufAux prms [] [(pkg, entry)] [] = _
    exact fillBufAux_nil prms [(pkg, entry)] []
  have hrun := runIter_drained prms 2 ⟨[body ++ [10], 112 :: 0 :: (json ++ [10])], [], []⟩
    ⟨[], [(pkg, entry)], []⟩ hfill rfl (by simp)
  simpa using hrun

/-- Witness for C5: the `/bin/foo` record alone in block one, its package
record alone in block two. -/
theorem c5_cross_block_resolution_witness :
    collectBlocks binParams
        [entryFoo.encodeBytes ++ [10], 112 :: 0 :: (storePathJson pkgDemo ++ [10])] [] =
      .ok [(pkgDemo, entryFoo)] [] ∧
    runIter binParams 2
        ⟨[entryFoo.encodeBytes ++ [10], 112 :: 0 :: (storePathJson pkgDemo ++ [10])],
          [], []⟩ =
      some [(pkgDemo, entryFoo)] :=
  c5_cross_block_resolution binParams entryFoo.encodeBytes (storePathJson pkgDemo)
    entryFoo pkgDemo (by decide) (by decide) (by decide) (by decide) (by decide)
    (by decide) (by decide) (by decide) (by decide) (Or.inl (by decide)) (by decide)

/-! ## Semantic lemmas about the matcher, for the anchor-rewrite claims -/

/-- `starReachAux` computes exactly the progressing-match chains, given
enough fuel. -/
theorem starReachAux_mem (f : Nat → List Nat) (n : Nat) :
    ∀ (fuel i j : Nat), n + 1 ≤ fuel + i →
      (j ∈ starReachAux f n fuel i ↔ StarChain f n i j) := by
  intro fuel
  induction fuel with
  | zero =>
    intro i j hfi
    simp only [starReachAux, List.mem_singleton]
    constructor
    · rintro rfl
      exact .refl _
    · intro hc
      cases hc with
      | refl => rfl
      | step hm hlt hle hchain => omega
  | succ fuel ih =>
    intro i j hfi
    simp only [starReachAux, List.mem_cons, List.mem_flatMap, List.mem_filter,
      Bool.and_eq_true, decide_eq_true_eq]
    constructor
    · rintro (rfl | ⟨m, ⟨hmf, hlt, hle⟩, hj⟩)
      · exact .refl j
      · exact .step hmf hlt hle ((ih m j (by omega)).mp hj)
    · intro hc
      cases hc with
      | refl => exact Or.inl rfl
      | @step _ m _ hm hlt hle hchain =>
        exact Or.inr ⟨m, ⟨hm, hlt, hle⟩, (ih m j (by omega)).mpr hchain⟩

theorem starReach_mem (f : Nat → List Nat) (n i j : Nat) :
    j ∈ starReach f n i ↔ StarChain f n i j :=
  starReachAux_mem f n (n + 2) i j (by omega)

theorem starChain_upper {f : Nat → List Nat} {n i j : Nat} (h : StarChain f n i j) :
    j = i ∨ j ≤ n := by
  induction h with
  | refl => exact Or.inl rfl
  | step hm hlt hle hc ih =>
    rcases ih with rfl | hj
    · exact Or.inr hle
    · exact Or.inr hj

/-- Every end position of a match is bounded by the start or the haystack
length. -/
theorem endsAt_upper (ml : Bool) (h : List Byte) :
    ∀ (a : Ast) (i j : Nat), j ∈ endsAt ml h a i → j ≤ max i h.length := by
  intro a
  induction a with
  | empty =>
    intro i j hj
    simp only [endsAt, List.mem_singleton] at hj
    omega
  | literal b =>
    intro i j hj
    simp only [endsAt] at hj
    split at hj
    · rename_i heq
      have hi : i < h.length := by
        rcases List.getElem?_eq_some.mp heq with ⟨hlt, -⟩
        exact hlt
      simp only [List.mem_singleton] at hj
      omega
    · simp at hj
  | dot =>
    intro i j hj
    simp only [endsAt] at hj
    split at hj
    · rename_i c heq
      have hi : i < h.length := by
        rcases List.getElem?_eq_some.mp heq with ⟨hlt, -⟩
        exact hlt
      split at hj
      · simp at hj
      · simp only [List.mem_singleton] at hj
        omega
    · simp at hj
  | cls bs =>
    intro i j hj
    simp only [endsAt] at hj
    split at hj
    · rename_i c heq
      have hi : i < h.length := by
        rcases List.getElem?_eq_some.mp heq with ⟨hlt, -⟩
        exact hlt
      split at hj
      · simp only [List.mem_singleton] at hj
        omega
      · simp at hj
    · simp at hj
  | assertion k =>
    intro i j hj
    simp only [endsAt] at hj
    split at hj
    · simp only [List.mem_singleton] at hj
      omega
    · simp at hj
  | group a iha =>
    intro i j hj
    exact iha i j hj
  | star a iha =>
    intro i j hj
    simp only [endsAt] at hj
    rcases starChain_upper ((starReach_mem _ _ _ _).mp hj) with rfl | hle
    · omega
    · omega
  | cat l r ihl ihr =>
    intro i j hj
    simp only [endsAt, List.mem_flatMap] at hj
    obtain ⟨m, hm, hj⟩ := hj
    have h1 := ihl i m hm
    have h2 := ihr m j hj
    omega
  | alt l r ihl ihr =>
    intro i j hj
    simp only [endsAt, List.mem_append] at hj
    rcases hj with hj | hj
    · exact ihl i j hj
    · exact ihr i j hj

/-- The anchor rewrite leaves an assertion-free AST unchanged. -/
theorem replaceAnchors_plain : ∀ a : Ast, plainAst a = true → replaceAnchors a = a := by
  intro a
  induction a with
  | group a iha =>
    intro hp
    simp only [plainAst] at hp
    simp [replaceAnchors, iha hp]
  | star a iha =>
    intro hp
    simp only [plainAst] at hp
    simp [replaceAnchors, iha hp]
  | cat l r ihl ihr =>
    intro hp
    simp only [plainAst, Bool.and_eq_true] at hp
    simp [replaceAnchors, ihl hp.1, ihr hp.2]
  | alt l r ihl ihr =>
    intro hp
    simp only [plainAst, Bool.and_eq_true] at hp
    simp [replaceAnchors, ihl hp.1, ihr hp.2]
  | assertion k => intro hp; simp [plainAst] at hp
  | empty => intro _; rfl
  | literal b => intro _; rfl
  | dot => intro _; rfl
  | cls bs => intro _; rfl

/-- For an assertion-free AST the multi-line flag is irrelevant. -/
theorem endsAt_ml_irrel (ml ml' : Bool) (h : List Byte) :
    ∀ a : Ast, plainAst a = true → ∀ i : Nat, endsAt ml h a i = endsAt ml' h a i := by
  intro a
  induction a with
  | empty => intro _ i; rfl
  | literal b => intro _ i; rfl
  | dot => intro _ i; rfl
  | cls bs => intro _ i; rfl
  | assertion k => intro hp; simp [plainAst] at hp
  | group a iha =>
    intro hp i
    simp only [plainAst] at hp
    simp only [endsAt]
    exact iha hp i
  | star a iha =>
    intro hp i
    simp only [plainAst] at hp
    simp only [endsAt]
    rw [funext (iha hp)]
  | cat l r ihl ihr =>
    intro hp i
    simp only [plainAst, Bool.and_eq_true] at hp
    simp only [endsAt]
    rw [ihl hp.1 i, funext (ihr hp.2)]
  | alt l r ihl ihr =>
    intro hp i
    simp only [plainAst, Bool.and_eq_true] at hp
    simp only [endsAt]
    rw [ihl hp.1 i, ihr hp.2 i]

/-- Matching an assertion-free AST in `x ++ y` from a position inside `y` is
exactly matching it in `y`, with every position shifted by `x.length`. -/
theorem plain_shift (ml : Bool) (x y : List Byte) :
    ∀ a : Ast, plainAst a = true → ∀ i k : Nat,
      (k ∈ endsAt ml (x ++ y) a (x.length + i) ↔
        ∃ j, j ∈ endsAt ml y a i ∧ k = x.length + j) := by
  have hget : ∀ i : Nat, (x ++ y)[x.length + i]? = y[i]? := by
    intro i
    rw [List.getElem?_append_right (by omega)]
    congr 1
    omega
  intro a
  induction a with
  | empty =>
    intro _ i k
    simp only [endsAt, List.mem_singleton]
    constructor
    · rintro rfl
      exact ⟨i, rfl, rfl⟩
    · rintro ⟨j, rfl, rfl⟩
      rfl
  | literal b =>
    intro _ i k
    simp only [endsAt, hget i]
    by_cases hc : y[i]? = some b
    · simp only [hc, if_pos, List.mem_singleton]
      constructor
      · rintro rfl
        exact ⟨i + 1, rfl, by omega⟩
      · rintro ⟨j, rfl, rfl⟩
        omega
    · simp [hc]
  | dot =>
    intro _ i k
    simp only [endsAt, hget i]
    match hc : y[i]? with
    | none => simp
    | some c =>
      by_cases h10 : c = 10
      · simp [h10]
      · simp only [if_neg h10, List.mem_singleton]
        constructor
        · rintro rfl
          exact ⟨i + 1, rfl, by omega⟩
        · rintro ⟨j, rfl, rfl⟩
          omega
  | cls bs =>
    intro _ i k
    simp only [endsAt, hget i]
    match hc : y[i]? with
    | none => simp
    | some c =>
      by_cases hmem : c ∈ bs
      · simp only [if_pos hmem, List.mem_singleton]
        constructor
        · rintro rfl
          exact ⟨i + 1, rfl, by omega⟩
        · rintro ⟨j, rfl, rfl⟩
          omega
      · simp [hmem]
  | assertion k0 =>
    intro hp
    simp [plainAst] at hp
  | group a iha =>
    intro hp i k
    simp only [plainAst] at hp
    exact iha hp i k
  | star a iha =>
    intro hp i k
    simp only [plainAst] at hp
    simp only [endsAt, starReach_mem]
    have hlen : (x ++ y).length = x.length + y.length := List.length_append x y
    constructor
    · intro hc
      have fwd : ∀ s k1, StarChain (endsAt ml (x ++ y) a) (x ++ y).length s k1 →
          ∀ i0, s = x.length + i0 →
          ∃ j, StarChain (endsAt ml y a) y.length i0 j ∧ k1 = x.length + j := by
        intro s k1 hch
        induction hch with
        | refl i1 =>
          intro i0 heq
          exact ⟨i0, .refl i0, heq⟩
        | @step s1 m k2 hm hlt hle hch1 ih =>
          intro i0 heq
          subst heq
          obtain ⟨j1, hj1, rfl⟩ := (iha hp i0 m).mp hm
          obtain ⟨j, hjch, rfl⟩ := ih j1 rfl
          exact ⟨j, .step hj1 (by omega) (by omega) hjch, rfl⟩
      exact fwd _ k hc i rfl
    · rintro ⟨j, hj, rfl⟩
      have bwd : ∀ i0 j0, StarChain (endsAt ml y a) y.length i0 j0 →
          StarChain (endsAt ml (x ++ y) a) (x ++ y).length (x.length + i0)
            (x.length + j0) := by
        intro i0 j0 hch
        induction hch with
        | refl i1 => exact .refl _
        | @step s1 m k2 hm hlt hle hch1 ih =>
          exact .step ((iha hp s1 (x.length + m)).mpr ⟨m, hm, rfl⟩) (by omega)
            (by omega) ih
      exact bwd i j hj
  | cat l r ihl ihr =>
    intro hp i k
    simp only [plainAst, Bool.and_eq_true] at hp
    simp only [endsAt, List.mem_flatMap]
    constructor
    · rintro ⟨m, hm, hk⟩
      obtain ⟨j1, hj1, rfl⟩ := (ihl hp.1 i m).mp hm
      obtain ⟨j2, hj2, rfl⟩ := (ihr hp.2 j1 k).mp hk
      exact ⟨j2, ⟨j1, hj1, hj2⟩, rfl⟩
    · rintro ⟨j, ⟨m, hm, hj⟩, rfl⟩
      exact ⟨x.length + m, (ihl hp.1 i (x.length + m)).mpr ⟨m, hm, rfl⟩,
        (ihr hp.2 m (x.length + j)).mpr ⟨j, hj, rfl⟩⟩
  | alt l r ihl ihr =>
    intro hp i k
    simp only [plainAst, Bool.and_eq_true] at hp
    simp only [endsAt, List.mem_append]
    constructor
    · rintro (hk | hk)
      · obtain ⟨j, hj, rfl⟩ := (ihl hp.1 i k).mp hk
        exact ⟨j, Or.inl hj, rfl⟩
      · obtain ⟨j, hj, rfl⟩ := (ihr hp.2 i k).mp hk
        exact ⟨j, Or.inr hj, rfl⟩
    · rintro ⟨j, hj | hj, rfl⟩
      · exact Or.inl ((ihl hp.1 i _).mpr ⟨j, hj, rfl⟩)
      · exact Or.inr ((ihr hp.2 i _).mpr ⟨j, hj, rfl⟩)

/-- A newline-free, assertion-free AST matches in `p ++ 10 :: rest` from a
position inside `p` exactly as it matches in `p` alone: no match can step
across the `\n`. -/
theorem nl_stop (ml : Bool) (p rest : List Byte) :
    ∀ a : Ast, plainAst a = true → nlFreeAst a = true → ∀ i k : Nat, i ≤ p.length →
      (k ∈ endsAt ml (p ++ 10 :: rest) a i ↔ k ∈ endsAt ml p a i) := by
  have hgetlt : ∀ i : Nat, i < p.length → (p ++ 10 :: rest)[i]? = p[i]? := by
    intro i hi
    rw [List.getElem?_append, if_pos hi]
  have hgeteq : (p ++ 10 :: rest)[p.length]? = some 10 := by
    rw [List.getElem?_append_right (by omega)]
    simp
  intro a
  induction a with
  | empty => intro _ _ i k _; rfl
  | literal b =>
    intro _ hnl i k hi
    simp only [nlFreeAst, decide_eq_true_eq] at hnl
    rcases Nat.lt_or_ge i p.length with hlt | hge
    · simp only [endsAt, hgetlt i hlt]
    · have hieq : i = p.length := by omega
      subst hieq
      simp only [endsAt, hgeteq]
      rw [if_neg (by simpa using Ne.symm hnl), if_neg (by simp)]
  | dot =>
    intro _ _ i k hi
    rcases Nat.lt_or_ge i p.length with hlt | hge
    · simp only [endsAt, hgetlt i hlt]
    · have hieq : i = p.length := by omega
      subst hieq
      simp only [endsAt, hgeteq]
      simp
  | cls bs =>
    intro _ hnl i k hi
    simp only [nlFreeAst, decide_eq_true_eq] at hnl
    rcases Nat.lt_or_ge i p.length with hlt | hge
    · simp only [endsAt, hgetlt i hlt]
    · have hieq : i = p.length := by omega
      subst hieq
      simp only [endsAt, hgeteq]
      rw [if_neg hnl]
      simp
  | assertion k0 =>
    intro hp
    simp [plainAst] at hp
  | group a iha =>
    intro hp hnl i k hi
    simp only [plainAst] at hp
    simp only [nlFreeAst] at hnl
    exact iha hp hnl i k hi
  | star a iha =>
    intro hp hnl i k hi
    simp only [plainAst] at hp
    simp only [nlFreeAst] at hnl
    simp only [endsAt, starReach_mem]
    constructor
    · intro hc
      have fwd : ∀ s k1, StarChain (endsAt ml (p ++ 10 :: rest) a)
            (p ++ 10 :: rest).length s k1 → s ≤ p.length →
          StarChain (endsAt ml p a) p.length s k1 := by
        intro s k1 hch
        induction hch with
        | refl i1 => intro _; exact .refl i1
        | @step s1 m k2 hm hlt hle hch1 ih =>
          intro hs
          have hm' : m ∈ endsAt ml p a s1 := (iha hp hnl s1 m hs).mp hm
          have hmle : m ≤ p.length := by
            have := endsAt_upper ml p a s1 m hm'
            omega
          exact .step hm' hlt hmle (ih hmle)
      exact fwd i k hc hi
    · intro hc
      have bwd : ∀ s k1, StarChain (endsAt ml p a) p.length s k1 → s ≤ p.length →
          StarChain (endsAt ml (p ++ 10 :: rest) a) (p ++ 10 :: rest).length s k1 := by
        intro s k1 hch
        induction hch with
        | refl i1 => intro _; exact .refl i1
        | @step s1 m k2 hm hlt hle hch1 ih =>
          intro hs
          have hm' : m ∈ endsAt ml (p ++ 10 :: rest) a s1 := (iha hp hnl s1 m hs).mpr hm
          have hlen : (p ++ 10 :: rest).length = p.length + rest.length + 1 := by
            simp [List.length_append]
            omega
          exact .step hm' hlt (by omega) (ih hle)
      exact bwd i k hc hi
  | cat l r ihl ihr =>
    intro hp hnl i k hi
    simp only [plainAst, Bool.and_eq_true] at hp
    simp only [nlFreeAst, Bool.and_eq_true] at hnl
    simp only [endsAt, List.mem_flatMap]
    constructor
    · rintro ⟨m, hm, hk⟩
      have hm' : m ∈ endsAt ml p l i := (ihl hp.1 hnl.1 i m hi).mp hm
      have hmle : m ≤ p.length := by
        have := endsAt_upper ml p l i m hm'
        omega
      exact ⟨m, hm', (ihr hp.2 hnl.2 m k hmle).mp hk⟩
    · rintro ⟨m, hm, hk⟩
      have hmle : m ≤ p.length := by
        have := endsAt_upper ml p l i m hm
        omega
      exact ⟨m, (ihl hp.1 hnl.1 i m hi).mpr hm, (ihr hp.2 hnl.2 m k hmle).mpr hk⟩
  | alt l r ihl ihr =>
    intro hp hnl i k hi
    simp only [plainAst, Bool.and_eq_true] at hp
    simp only [nlFreeAst, Bool.and_eq_true] at hnl
    simp only [endsAt, List.mem_append]
    rw [ihl hp.1 hnl.1 i k hi, ihr hp.2 hnl.2 i k hi]

theorem hasMatch_iff (ml : Bool) (a : Ast) (h : List Byte) :
    hasMatch ml a h = true ↔ ∃ s, s ≤ h.length ∧ endsAt ml h a s ≠ [] := by
  unfold hasMatch
  rw [List.any_eq_true]
  constructor
  · rintro ⟨s, hmem, hne⟩
    rw [List.mem_range] at hmem
    refine ⟨s, by omega, ?_⟩
    simpa using hne
  · rintro ⟨s, hle, hne⟩
    refine ⟨s, List.mem_range.mpr (by omega), ?_⟩
    simpa using hne

theorem hasMatchFrom_iff (ml : Bool) (a : Ast) (h : List Byte) (lo : Nat) :
    hasMatchFrom ml a h lo = true ↔
      ∃ s, lo ≤ s ∧ s ≤ h.length ∧ endsAt ml h a s ≠ [] := by
  unfold hasMatchFrom
  rw [List.any_eq_true]
  constructor
  · rintro ⟨s, hmem, hcond⟩
    rw [List.mem_range] at hmem
    simp only [Bool.and_eq_true, decide_eq_true_eq] at hcond
    refine ⟨s, hcond.1, by omega, by simpa using hcond.2⟩
  · rintro ⟨s, hlo, hle, hne⟩
    refine ⟨s, List.mem_range.mpr (by omega), ?_⟩
    simp only [Bool.and_eq_true, decide_eq_true_eq]
    exact ⟨hlo, by simpa using hne⟩

/-- At the very end of the haystack, an assertion-free AST matches exactly
when it matches the empty string. -/
theorem end_match (ml : Bool) :
    ∀ a : Ast, plainAst a = true → ∀ (h : List Byte) (k : Nat),
      (k ∈ endsAt ml h a h.length ↔
        (k = h.length ∧ 0 ∈ endsAt ml ([] : List Byte) a 0)) := by
  intro a
  induction a with
  | empty =>
    intro _ h k
    simp [endsAt]
  | literal b =>
    intro _ h k
    simp [endsAt, List.getElem?_eq_none (Nat.le_refl h.length)]
  | dot =>
    intro _ h k
    simp [endsAt, List.getElem?_eq_none (Nat.le_refl h.length)]
  | cls bs =>
    intro _ h k
    simp [endsAt, List.getElem?_eq_none (Nat.le_refl h.length)]
  | assertion k0 =>
    intro hp
    simp [plainAst] at hp
  | group a iha =>
    intro hp h k
    simp only [plainAst] at hp
    simp only [endsAt]
    exact iha hp h k
  | star a iha =>
    intro hp h k
    simp only [plainAst] at hp
    simp only [endsAt, starReach_mem]
    constructor
    · intro hc
      cases hc with
      | refl => exact ⟨rfl, .refl 0⟩
      | step hm hlt hle hch =>
        have := endsAt_upper ml h a h.length _ hm
        omega
    · rintro ⟨rfl, -⟩
      exact .refl _
  | cat l r ihl ihr =>
    intro hp h k
    simp only [plainAst, Bool.and_eq_true] at hp
    simp only [endsAt, List.mem_flatMap]
    constructor
    · rintro ⟨m, hm, hk⟩
      obtain ⟨rfl, hnull⟩ := (ihl hp.1 h m).mp hm
      obtain ⟨rfl, hnulr⟩ := (ihr hp.2 h k).mp hk
      exact ⟨rfl, ⟨0, hnull, hnulr⟩⟩
    · rintro ⟨rfl, m, hm, hr⟩
      have hm0 : m = 0 := by
        have := endsAt_upper ml [] l 0 m hm
        simp at this
        omega
      subst hm0
      exact ⟨h.length, (ihl hp.1 h h.length).mpr ⟨rfl, hm⟩,
        (ihr hp.2 h h.length).mpr ⟨rfl, hr⟩⟩
  | alt l r ihl ihr =>
    intro hp h k
    simp only [plainAst, Bool.and_eq_true] at hp
    simp only [endsAt, List.mem_append]
    rw [ihl hp.1 h k, ihr hp.2 h k]
    constructor
    · rintro (⟨rfl, hn⟩ | ⟨rfl, hn⟩)
      · exact ⟨rfl, Or.inl hn⟩
      · exact ⟨rfl, Or.inr hn⟩
    · rintro ⟨rfl, hn | hn⟩
      · exact Or.inl ⟨rfl, hn⟩
      · exact Or.inr ⟨rfl, hn⟩

/-- An assertion-free AST that matches the empty string matches it at every
position of every haystack. -/
theorem nullable_self (ml : Bool) :
    ∀ a : Ast, plainAst a = true → 0 ∈ endsAt ml ([] : List Byte) a 0 →
      ∀ (h : List Byte) (i : Nat), i ∈ endsAt ml h a i := by
  intro a
  induction a with
  | empty =>
    intro _ _ h i
    simp [endsAt]
  | literal b => intro _ hn; simp [endsAt] at hn
  | dot => intro _ hn; simp [endsAt] at hn
  | cls bs => intro _ hn; simp [endsAt] at hn
  | assertion k0 => intro hp; simp [plainAst] at hp
  | group a iha =>
    intro hp hn h i
    simp only [plainAst] at hp
    exact iha hp hn h i
  | star a iha =>
    intro _ _ h i
    simp only [endsAt]
    exact (starReach_mem _ _ _ _).mpr (.refl i)
  | cat l r ihl ihr =>
    intro hp hn h i
    simp only [plainAst, Bool.and_eq_true] at hp
    simp only [endsAt, List.mem_flatMap] at hn ⊢
    obtain ⟨m, hm, hr⟩ := hn
    have hm0 : m = 0 := by
      have := endsAt_upper ml [] l 0 m hm
      simp at this
      omega
    subst hm0
    exact ⟨i, ihl hp.1 hm h i, ihr hp.2 hr h i⟩
  | alt l r ihl ihr =>
    intro hp hn h i
    simp only [plainAst, Bool.and_eq_true] at hp
    simp only [endsAt, List.mem_append] at hn ⊢
    rcases hn with hn | hn
    · exact Or.inl (ihl hp.1 hn h i)
    · exact Or.inr (ihr hp.2 hn h i)

/-- In a record `M\0p\n` with NUL-free metadata and path, the NUL byte sits
exactly at offset `M.length`. -/
theorem record_nul (M p : List Byte) (hM : (0 : Byte) ∉ M) (hp : (0 : Byte) ∉ p)
    (s : Nat) : (recordBytes M p)[s]? = some 0 ↔ s = M.length := by
  unfold recordBytes
  constructor
  · intro hs
    rcases Nat.lt_trichotomy s M.length with hlt | heq | hgt
    · rw [List.getElem?_append, if_pos hlt] at hs
      exact absurd (List.getElem?_mem hs) hM
    · exact heq
    · exfalso
      rw [List.getElem?_append, if_neg (by omega)] at hs
      rcases hd : s - M.length with - | d
      · omega
      · rw [hd, List.getElem?_cons_succ] at hs
        have hmem := List.getElem?_mem hs
        rcases List.mem_append.mp hmem with hmem | hmem
        · exact hp hmem
        · simp at hmem
  · rintro rfl
    rw [List.getElem?_append, if_neg (by omega)]
    simp

theorem cat_ends (ml : Bool) (h : List Byte) (l r : Ast) (s k : Nat) :
    k ∈ endsAt ml h (.cat l r) s ↔
      ∃ m, m ∈ endsAt ml h l s ∧ k ∈ endsAt ml h r m := by
  simp [endsAt]

/-- The shift lemma specialised to the record layout `M\0p\n`: matching the
core from offset `M.length + 1 + i` of the record is matching it from offset
`i` of `p\n`. -/
theorem record_shift (core : Ast) (hplain : plainAst core = true) (M p : List Byte)
    (i k : Nat) :
    k ∈ endsAt true (recordBytes M p) core (M.length + 1 + i) ↔
      ∃ j, j ∈ endsAt true (p ++ [10]) core i ∧ k = M.length + 1 + j := by
  have hrec : recordBytes M p = (M ++ [0]) ++ (p ++ [10]) := by
    simp [recordBytes]
  have hx : (M ++ [0]).length = M.length + 1 := by simp
  have hshift := plain_shift true (M ++ [0]) (p ++ [10]) core hplain i k
  rw [hx] at hshift
  rw [hrec]
  exact hshift

/-- **C4** counterexample.  The claim's biconditional fails as stated: with
user regex `a`, metadata `a` and path `b`, the rewritten regex (still `a`)
matches inside the record `a\0b\n` (in the metadata), while `a` does not
match the path `b` stand-alone. -/
theorem c4_anchor_rewrite_cex :
    replaceAnchors (.literal 97) = .literal 97 ∧
    hasMatch true (replaceAnchors (.literal 97)) (recordBytes [97] [98]) = true ∧
    hasMatch false (.literal 97) [98] = false := by
  refine ⟨rfl, by decide, by decide⟩

/-- **C4** (corrected).  The anchor rewrite replaces `^` by a literal NUL
and leaves an assertion-free core unchanged; consequently, for a user regex
`^core` (core assertion-free and unable to match `\n`) the rewritten regex
matches anywhere in a record `M\0p\n` iff `^core` matches `p` stand-alone,
and for an unanchored assertion-free `core` the rewritten regex matches the
record at an offset inside the `\0p\n` suffix (strictly after the NUL) iff
`core` matches `p` stand-alone.  The unrestricted biconditional of the claim
is refuted by the counterexample (a match inside the metadata). -/
theorem c4_anchor_rewrite_amended :
    (∀ core : Ast, plainAst core = true →
      replaceAnchors (.cat (.assertion .startLine) core) = .cat (.literal 0) core) ∧
    (∀ (core : Ast) (M p : List Byte), plainAst core = true → nlFreeAst core = true →
      (0 : Byte) ∉ M → (0 : Byte) ∉ p →
      (hasMatch true (replaceAnchors (.cat (.assertion .startLine) core))
          (recordBytes M p) = true ↔
        hasMatch false (.cat (.assertion .startLine) core) p = true)) ∧
    (∀ (core : Ast) (M p : List Byte), plainAst core = true → nlFreeAst core = true →
      (hasMatchFrom true (replaceAnchors core) (recordBytes M p) (M.length + 1) = true ↔
        hasMatch false core p = true)) := by
  have hrw : ∀ core : Ast, plainAst core = true →
      replaceAnchors (.cat (.assertion .startLine) core) = .cat (.literal 0) core := by
    intro core hplain
    show Ast.cat (replaceAnchors (.assertion .startLine)) (replaceAnchors core) = _
    rw [replaceAnchors_plain core hplain]
    rfl
  have hreclen : ∀ M p : List Byte,
      (recordBytes M p).length = M.length + p.length + 2 := by
    intro M p
    simp [recordBytes]
    omega
  refine ⟨hrw, ?_, ?_⟩
  · -- anchored case
    intro core M p hplain hnl hM0 hp0
    rw [hrw core hplain, hasMatch_iff, hasMatch_iff]
    constructor
    · rintro ⟨s, hsle, hne⟩
      obtain ⟨k, hk⟩ := List.exists_mem_of_ne_nil _ hne
      rw [cat_ends] at hk
      obtain ⟨m, hm, hk⟩ := hk
      simp only [endsAt] at hm
      split at hm
      case isFalse => simp at hm
      case isTrue heq =>
        have hsM : s = M.length := (record_nul M p hM0 hp0 s).mp heq
        simp only [List.mem_singleton] at hm
        subst hm hsM
        rw [show M.length + 1 = M.length + 1 + 0 from rfl] at hk
        obtain ⟨j, hj, rfl⟩ := (record_shift core hplain M p 0 k).mp hk
        rw [nl_stop true p [] core hplain hnl 0 j (by omega)] at hj
        rw [endsAt_ml_irrel true false p core hplain 0] at hj
        refine ⟨0, by omega, ?_⟩
        rw [Ne, List.eq_nil_iff_forall_not_mem]
        push_neg
        refine ⟨j, ?_⟩
        rw [cat_ends]
        refine ⟨0, ?_, hj⟩
        simp [endsAt, assertHolds]
    · rintro ⟨s, hsle, hne⟩
      obtain ⟨k, hk⟩ := List.exists_mem_of_ne_nil _ hne
      rw [cat_ends] at hk
      obtain ⟨m, hm, hk⟩ := hk
      simp [endsAt, assertHolds] at hm
      obtain ⟨rfl, rfl⟩ := hm
      · rw [← endsAt_ml_irrel true false p core hplain 0] at hk
        rw [← nl_stop true p [] core hplain hnl 0 k (by omega)] at hk
        have hk2 : M.length + 1 + k ∈
            endsAt true (recordBytes M p) core (M.length + 1 + 0) :=
          (record_shift core hplain M p 0 (M.length + 1 + k)).mpr ⟨k, hk, rfl⟩
        refine ⟨M.length, by rw [hreclen]; omega, ?_⟩
        rw [Ne, List.eq_nil_iff_forall_not_mem]
        push_neg
        refine ⟨M.length + 1 + k, ?_⟩
        rw [cat_ends]
        refine ⟨M.length + 1, ?_, by simpa using hk2⟩
        simp only [endsAt]
        rw [if_pos ((record_nul M p hM0 hp0 M.length).mpr rfl)]
        simp
  · -- unanchored case
    intro core M p hplain hnl
    rw [replaceAnchors_plain core hplain, hasMatchFrom_iff, hasMatch_iff]
    constructor
    · rintro ⟨s, hlo, hsle, hne⟩
      obtain ⟨k, hk⟩ := List.exists_mem_of_ne_nil _ hne
      have hs : s = M.length + 1 + (s - (M.length + 1)) := by omega
      rw [hs] at hk
      obtain ⟨j, hj, rfl⟩ := (record_shift core hplain M p _ k).mp hk
      rcases Nat.lt_or_ge (s - (M.length + 1)) (p.length + 1) with hi | hi
      · rw [nl_stop true p [] core hplain hnl _ j (by omega)] at hj
        rw [endsAt_ml_irrel true false p core hplain] at hj
        refine ⟨s - (M.length + 1), by omega, ?_⟩
        rw [Ne, List.eq_nil_iff_forall_not_mem]
        push_neg
        exact ⟨j, hj⟩
      · have hieq : s - (M.length + 1) = (p ++ [10]).length := by
          rw [hreclen] at hsle
          simp only [List.length_append, List.length_cons, List.length_nil]
          omega
        rw [hieq] at hj
        obtain ⟨-, hnull⟩ := (end_match true core hplain (p ++ [10]) j).mp hj
        have hself := nullable_self true core hplain hnull p 0
        rw [endsAt_ml_irrel true false p core hplain 0] at hself
        refine ⟨0, by omega, ?_⟩
        rw [Ne, List.eq_nil_iff_forall_not_mem]
        push_neg
        exact ⟨0, hself⟩
    · rintro ⟨s, hsle, hne⟩
      obtain ⟨k, hk⟩ := List.exists_mem_of_ne_nil _ hne
      rw [← endsAt_ml_irrel true false p core hplain s] at hk
      rw [← nl_stop true p [] core hplain hnl s k hsle] at hk
      have hk2 : M.length + 1 + k ∈
          endsAt true (recordBytes M p) core (M.length + 1 + s) :=
        (record_shift core hplain M p s (M.length + 1 + k)).mpr ⟨k, hk, rfl⟩
      refine ⟨M.length + 1 + s, by omega, by rw [hreclen]; omega, ?_⟩
      rw [Ne, List.eq_nil_iff_forall_not_mem]
      push_neg
      exact ⟨M.length + 1 + k, hk2⟩

/-- Witness for the amended C4: regex `bin` (unanchored) and `^/bin/foo`
(anchored, as `^` followed by the literal path) against the record of
`/bin/foo`. -/
theorem c4_anchor_rewrite_amended_witness :
    replaceAnchors (.cat (.assertion .startLine) patBin) = .cat (.literal 0) patBin ∧
    (hasMatch true (replaceAnchors (.cat (.assertion .startLine) patBin))
        (recordBytes [114, 45] [47, 98, 105, 110]) = true ↔
      hasMatch false (.cat (.assertion .startLine) patBin) [47, 98, 105, 110] = true) ∧
    (hasMatchFrom true (replaceAnchors patBin)
        (recordBytes [114, 45] [47, 98, 105, 110]) 3 = true ↔
      hasMatch false patBin [47, 98, 105, 110] = true) :=
  ⟨c4_anchor_rewrite_amended.1 patBin (by decide),
   c4_anchor_rewrite_amended.2.1 patBin [114, 45] [47, 98, 105, 110] (by decide)
     (by decide) (by decide) (by decide),
   c4_anchor_rewrite_amended.2.2 patBin [114, 45] [47, 98, 105, 110] (by decide)
     (by decide)⟩

/-- Index lookup inside the `p\n` suffix of a record. -/
theorem record_get_suffix (M p : List Byte) (j : Nat) :
    (recordBytes M p)[M.length + 1 + j]? = (p ++ [10])[j]? := by
  have hrec : recordBytes M p = (M ++ [0]) ++ (p ++ [10]) := by
    simp [recordBytes]
  rw [hrec, List.getElem?_append_right
    (by simp only [List.length_append, List.length_cons, List.length_nil]; omega)]
  congr 1
  simp only [List.length_append, List.length_cons, List.length_nil]
  omega

/-- **C10** The anchor rewrite replaces only `^`: every other assertion kind
(`$`, `\A`, `\z`, `\b`, `\B`) is left unchanged, and for a doubly anchored
user regex `^core$` (core assertion-free, unable to match `\n`) the rewritten
regex under the multi-line newline-terminated matcher matches the record
`M\0p\n` iff `^core$` matches the path `p` stand-alone — the trailing `$`
matches at the record-terminating newline rather than being turned into a
literal byte. -/
theorem c10_only_start_anchors_rewritten :
    (∀ k : AssertionKind, k ≠ .startLine →
      replaceAnchors (.assertion k) = .assertion k) ∧
    (∀ (core : Ast) (M p : List Byte), plainAst core = true → nlFreeAst core = true →
      (0 : Byte) ∉ M → (0 : Byte) ∉ p → (10 : Byte) ∉ p →
      (replaceAnchors (.cat (.cat (.assertion .startLine) core) (.assertion .endLine)) =
          .cat (.cat (.literal 0) core) (.assertion .endLine) ∧
        (hasMatch true
            (replaceAnchors
              (.cat (.cat (.assertion .startLine) core) (.assertion .endLine)))
            (recordBytes M p) = true ↔
          hasMatch false (.cat (.cat (.assertion .startLine) core)
            (.assertion .endLine)) p = true))) := by
  constructor
  · intro k hk
    cases k
    · exact absurd rfl hk
    all_goals rfl
  intro core M p hplain hnl hM0 hp0 hp10
  have hrw : replaceAnchors
      (.cat (.cat (.assertion .startLine) core) (.assertion .endLine)) =
      .cat (.cat (.literal 0) core) (.assertion .endLine) := by
    show Ast.cat (Ast.cat (replaceAnchors (.assertion .startLine)) (replaceAnchors core))
      (replaceAnchors (.assertion .endLine)) = _
    rw [replaceAnchors_plain core hplain]
    rfl
  have hreclen : (recordBytes M p).length = M.length + p.length + 2 := by
    simp [recordBytes]
    omega
  refine ⟨hrw, ?_⟩
  rw [hrw, hasMatch_iff, hasMatch_iff]
  constructor
  · rintro ⟨s, hsle, hne⟩
    obtain ⟨k, hk⟩ := List.exists_mem_of_ne_nil _ hne
    rw [cat_ends] at hk
    obtain ⟨m1, hm1, hk⟩ := hk
    rw [cat_ends] at hm1
    obtain ⟨m0, hm0, hm1⟩ := hm1
    simp only [endsAt] at hm0
    split at hm0
    case isFalse => simp at hm0
    case isTrue heq =>
      have hsM : s = M.length := (record_nul M p hM0 hp0 s).mp heq
      simp only [List.mem_singleton] at hm0
      subst hm0 hsM
      rw [show M.length + 1 = M.length + 1 + 0 from rfl] at hm1
      obtain ⟨j, hj, rfl⟩ := (record_shift core hplain M p 0 m1).mp hm1
      rw [nl_stop true p [] core hplain hnl 0 j (by omega)] at hj
      have hjle : j ≤ p.length := by
        have := endsAt_upper true p core 0 j hj
        omega
      simp only [endsAt] at hk
      split at hk
      case isFalse => simp at hk
      case isTrue hhold =>
        have h2 : (decide (M.length + 1 + j = (recordBytes M p).length) ||
            decide ((recordBytes M p)[M.length + 1 + j]? = some 10)) = true := hhold
        rw [Bool.or_eq_true, decide_eq_true_eq, decide_eq_true_eq] at h2
        have hjend : j = p.length := by
          rcases h2 with hend | h10
          · rw [hreclen] at hend
            omega
          · rw [record_get_suffix M p j] at h10
            by_contra hne'
            have hjlt : j < p.length := by omega
            rw [List.getElem?_append, if_pos hjlt] at h10
            have : (10 : Byte) ∈ p := by
              have hg := List.getElem?_mem h10
              exact hg
            exact hp10 this
        subst hjend
        rw [endsAt_ml_irrel true false p core hplain 0] at hj
        refine ⟨0, by omega, ?_⟩
        rw [Ne, List.eq_nil_iff_forall_not_mem]
        push_neg
        refine ⟨p.length, ?_⟩
        rw [cat_ends]
        refine ⟨p.length, ?_, ?_⟩
        · rw [cat_ends]
          refine ⟨0, ?_, hj⟩
          simp [endsAt, assertHolds]
        · simp [endsAt, assertHolds]
  · rintro ⟨s, hsle, hne⟩
    obtain ⟨k, hk⟩ := List.exists_mem_of_ne_nil _ hne
    rw [cat_ends] at hk
    obtain ⟨m1, hm1, hk⟩ := hk
    rw [cat_ends] at hm1
    obtain ⟨m0, hm0, hm1⟩ := hm1
    simp [endsAt, assertHolds] at hm0
    obtain ⟨rfl, rfl⟩ := hm0
    simp [endsAt, assertHolds] at hk
    obtain ⟨rfl, rfl⟩ := hk
    rw [← endsAt_ml_irrel true false p core hplain 0] at hm1
    rw [← nl_stop true p [] core hplain hnl 0 p.length (by omega)] at hm1
    have hm1' : M.length + 1 + p.length ∈
        endsAt true (recordBytes M p) core (M.length + 1 + 0) :=
      (record_shift core hplain M p 0 (M.length + 1 + p.length)).mpr
        ⟨p.length, hm1, rfl⟩
    refine ⟨M.length, by rw [hreclen]; omega, ?_⟩
    rw [Ne, List.eq_nil_iff_forall_not_mem]
    push_neg
    refine ⟨M.length + 1 + p.length, ?_⟩
    rw [cat_ends]
    refine ⟨M.length + 1 + p.length, ?_, ?_⟩
    · rw [cat_ends]
      refine ⟨M.length + 1, ?_, by simpa using hm1'⟩
      simp only [endsAt]
      rw [if_pos ((record_nul M p hM0 hp0 M.length).mpr rfl)]
      simp
    · have hget10 : (recordBytes M p)[M.length + 1 + p.length]? = some 10 := by
        rw [record_get_suffix M p p.length]
        rw [List.getElem?_append_right (by omega)]
        simp
      have hhold : assertHolds true (recordBytes M p) .endLine
          (M.length + 1 + p.length) = true := by
        show (decide (M.length + 1 + p.length = (recordBytes M p).length) ||
          decide ((recordBytes M p)[M.length + 1 + p.length]? = some 10)) = true
        rw [hget10]
        simp
      simp only [endsAt]
      rw [if_pos hhold]
      simp

/-- Witness for C10: `^/bin$` against the record of path `/bin` with
metadata `r-`. -/
theorem c10_only_start_anchors_rewritten_witness :
    replaceAnchors (.cat (.cat (.assertion .startLine) patSlashBin)
        (.assertion .endLine)) =
      .cat (.cat (.literal 0) patSlashBin) (.assertion .endLine) ∧
    (hasMatch true
        (replaceAnchors (.cat (.cat (.assertion .startLine) patSlashBin)
          (.assertion .endLine)))
        (recordBytes [114, 45] [47, 98, 105, 110]) = true ↔
      hasMatch false (.cat (.cat (.assertion .startLine) patSlashBin)
        (.assertion .endLine)) [47, 98, 105, 110] = true) := by
  have h := c10_only_start_anchors_rewritten.2 patSlashBin [114, 45]
    [47, 98, 105, 110] (by decide) (by decide) (by decide) (by decide) (by decide)
  exact h

/-! ## Line-geometry toolbox for the filter-composition proof (C6) -/

theorem find_range_some (f : Nat → Bool) :
    ∀ (n a j : Nat), (List.range' a n).find? f = some j →
      a ≤ j ∧ j < a + n ∧ f j = true ∧ ∀ k, a ≤ k → k < j → f k = false := by
  intro n
  induction n with
  | zero => intro a j h; simp [List.range'] at h
  | succ n ih =>
    intro a j h
    rw [List.range'_succ] at h
    by_cases hfa : f a = true
    · rw [List.find?_cons_of_pos _ hfa] at h
      injection h with h
      subst h
      exact ⟨le_refl a, by omega, hfa, fun k h1 h2 => absurd (lt_of_le_of_lt h1 h2) (lt_irrefl a)⟩
    · rw [List.find?_cons_of_neg _ (by simpa using hfa)] at h
      obtain ⟨h1, h2, h3, h4⟩ := ih (a + 1) j h
      refine ⟨by omega, by omega, h3, ?_⟩
      intro k hk1 hk2
      rcases Nat.eq_or_lt_of_le hk1 with rfl | hk1'
      · simpa using hfa
      · exact h4 k hk1' hk2

theorem find_range_none (f : Nat → Bool) (n a : Nat)
    (h : (List.range' a n).find? f = none) :
    ∀ k, a ≤ k → k < a + n → f k = false := by
  intro k h1 h2
  have := List.find?_eq_none.mp h k (by rw [List.mem_range'_1]; omega)
  simpa using this

theorem find_range_isSome (f : Nat → Bool) (n a j : Nat)
    (h1 : a ≤ j) (h2 : j < a + n) (hf : f j = true) :
    ∃ r, (List.range' a n).find? f = some r ∧ r ≤ j := by
  cases h : (List.range' a n).find? f with
  | none => exact absurd hf (by simp [find_range_none f n a h j h1 h2])
  | some r =>
    refine ⟨r, rfl, ?_⟩
    obtain ⟨-, -, -, h4⟩ := find_range_some f n a r h
    by_contra hlt
    exact absurd hf (by simp [h4 j h1 (by omega)])

theorem lineEndAt_le (buf : List Byte) (pos : Nat) : lineEndAt buf pos ≤ buf.length := by
  unfold lineEndAt
  cases h : (List.range' pos (buf.length - pos)).find? (fun k => buf[k]? = some 10) with
  | none => exact le_refl _
  | some k =>
    obtain ⟨-, -, h3, -⟩ := find_range_some _ _ _ _ h
    have : buf[k]? ≠ none := by
      intro hn
      rw [hn] at h3
      simp at h3
    have := List.getElem?_eq_none_iff.not.mp (by simpa using this)
    show k + 1 ≤ buf.length
    omega

theorem lineEndAt_ge (buf : List Byte) (pos : Nat) (h : pos ≤ buf.length) :
    pos ≤ lineEndAt buf pos := by
  unfold lineEndAt
  cases hf : (List.range' pos (buf.length - pos)).find? (fun k => buf[k]? = some 10) with
  | none => exact h
  | some k =>
    obtain ⟨h1, -, -, -⟩ := find_range_some _ _ _ _ hf
    show pos ≤ k + 1
    omega

theorem lineEndAt_le_of_nl (buf : List Byte) (pos k0 : Nat)
    (hk0 : buf[k0]? = some 10) (h : pos ≤ k0) : lineEndAt buf pos ≤ k0 + 1 := by
  have hlt : k0 < buf.length := by
    have : buf[k0]? ≠ none := by rw [hk0]; simp
    have := List.getElem?_eq_none_iff.not.mp (by simpa using this)
    omega
  obtain ⟨r, hr, hle⟩ := find_range_isSome (fun k => buf[k]? = some 10)
    (buf.length - pos) pos k0 h (by omega) (by simp [hk0])
  unfold lineEndAt
  rw [hr]
  show r + 1 ≤ k0 + 1
  omega

/-- Full characterisation of `lineEndAt`: either it is one past the first
newline at or after `pos`, or there is no such newline and it is the buffer
length. -/
theorem lineEndAt_spec (buf : List Byte) (pos : Nat) :
    (∃ k, lineEndAt buf pos = k + 1 ∧ pos ≤ k ∧ buf[k]? = some 10 ∧
      ∀ m, pos ≤ m → m < k → buf[m]? ≠ some 10) ∨
    (lineEndAt buf pos = buf.length ∧
      ∀ m, pos ≤ m → m < buf.length → buf[m]? ≠ some 10) := by
  unfold lineEndAt
  cases hf : (List.range' pos (buf.length - pos)).find? (fun k => buf[k]? = some 10) with
  | none =>
    right
    refine ⟨rfl, ?_⟩
    intro m h1 h2
    have := find_range_none _ _ _ hf m h1 (by omega)
    simpa using this
  | some k =>
    left
    obtain ⟨h1, -, h3, h4⟩ := find_range_some _ _ _ _ hf
    refine ⟨k, rfl, h1, by simpa using h3, ?_⟩
    intro m hm1 hm2
    have := h4 m hm1 hm2
    simpa using this

theorem lastNlBefore_zero (buf : List Byte) : lastNlBefore buf 0 = none := rfl

theorem lastNlBefore_succ (buf : List Byte) (pos : Nat) :
    lastNlBefore buf (pos + 1) =
      if buf[pos]? = some 10 then some pos else lastNlBefore buf pos := by
  unfold lastNlBefore
  rw [List.range_succ, List.filter_append]
  by_cases h : buf[pos]? = some 10
  · rw [if_pos h]
    have : List.filter (fun k => decide (buf[k]? = some 10)) [pos] = [pos] := by
      simp [List.filter, h]
    rw [this, List.getLast?_concat]
  · rw [if_neg h]
    have : List.filter (fun k => decide (buf[k]? = some 10)) [pos] = [] := by
      simp [List.filter, h]
    rw [this, List.append_nil]

theorem lastNlBefore_some (buf : List Byte) :
    ∀ (pos j : Nat), lastNlBefore buf pos = some j →
      j < pos ∧ buf[j]? = some 10 ∧ ∀ k, j < k → k < pos → buf[k]? ≠ some 10 := by
  intro pos
  induction pos with
  | zero => intro j h; rw [lastNlBefore_zero] at h; cases h
  | succ pos ih =>
    intro j h
    rw [lastNlBefore_succ] at h
    by_cases hnl : buf[pos]? = some 10
    · rw [if_pos hnl] at h
      injection h with h
      subst h
      exact ⟨by omega, hnl, fun k h1 h2 => by omega⟩
    · rw [if_neg hnl] at h
      obtain ⟨h1, h2, h3⟩ := ih j h
      refine ⟨by omega, h2, ?_⟩
      intro k hk1 hk2
      rcases Nat.lt_or_ge k pos with hk | hk
      · exact h3 k hk1 hk
      · have : k = pos := by omega
        subst this
        exact hnl

theorem lastNlBefore_none (buf : List Byte) :
    ∀ pos, lastNlBefore buf pos = none → ∀ k, k < pos → buf[k]? ≠ some 10 := by
  intro pos
  induction pos with
  | zero => intro _ k hk; omega
  | succ pos ih =>
    intro h k hk
    rw [lastNlBefore_succ] at h
    by_cases hnl : buf[pos]? = some 10
    · rw [if_pos hnl] at h; cases h
    · rw [if_neg hnl] at h
      rcases Nat.lt_or_ge k pos with hk' | hk'
      · exact ih h k hk'
      · have : k = pos := by omega
        subst this
        exact hnl

theorem lastNlBefore_ge (buf : List Byte) (pos j : Nat)
    (hj : buf[j]? = some 10) (hlt : j < pos) :
    ∃ j', lastNlBefore buf pos = some j' ∧ j ≤ j' := by
  cases h : lastNlBefore buf pos with
  | none => exact absurd hj (lastNlBefore_none buf pos h j hlt)
  | some j' =>
    refine ⟨j', rfl, ?_⟩
    obtain ⟨-, -, h3⟩ := lastNlBefore_some buf pos j' h
    by_contra hgt
    exact h3 j (by omega) hlt hj

theorem lineStartAt_of_nl (buf : List Byte) (pos j : Nat)
    (hj : buf[j]? = some 10) (hlt : j < pos)
    (hno : ∀ k, j < k → k < pos → buf[k]? ≠ some 10) :
    lineStartAt buf pos = j + 1 := by
  obtain ⟨j', hj', hge⟩ := lastNlBefore_ge buf pos j hj hlt
  obtain ⟨h1, h2, -⟩ := lastNlBefore_some buf pos j' hj'
  have : j' = j := by
    by_contra hne
    exact hno j' (by omega) h1 h2
  subst this
  unfold lineStartAt
  rw [hj']

theorem lineStartAt_of_none (buf : List Byte) (pos : Nat)
    (hno : ∀ k, k < pos → buf[k]? ≠ some 10) :
    lineStartAt buf pos = 0 := by
  cases h : lastNlBefore buf pos with
  | none => unfold lineStartAt; rw [h]
  | some j =>
    obtain ⟨h1, h2, -⟩ := lastNlBefore_some buf pos j h
    exact absurd h2 (hno j h1)

theorem lineStartAt_ge_of_nl (buf : List Byte) (pos j : Nat)
    (hj : buf[j]? = some 10) (hlt : j < pos) :
    j + 1 ≤ lineStartAt buf pos := by
  obtain ⟨j', hj', hge⟩ := lastNlBefore_ge buf pos j hj hlt
  unfold lineStartAt
  rw [hj']
  show j + 1 ≤ j' + 1
  omega

theorem leftmostEnd_some_char (ml : Bool) (a : Ast) (h : List Byte) (r : Nat)
    (hr : leftmostEnd ml a h = some r) :
    r ≤ h.length ∧ (∃ s, s ≤ r ∧ r ∈ endsAt ml h a s) ∧
      (∀ r', r' < r → ∀ s, s ≤ r' → r' ∉ endsAt ml h a s) := by
  unfold leftmostEnd at hr
  rw [List.range_eq_range'] at hr
  obtain ⟨h1, h2, h3, h4⟩ := find_range_some _ _ _ _ hr
  refine ⟨by omega, ?_, ?_⟩
  · rw [List.any_eq_true] at h3
    obtain ⟨s, hs, hmem⟩ := h3
    rw [List.mem_range] at hs
    exact ⟨s, by omega, by simpa using hmem⟩
  · intro r' hr' s hs hmem
    have := h4 r' (by omega) hr'
    rw [List.any_eq_false] at this
    exact absurd (by simpa using hmem) (by simpa using this s (by rw [List.mem_range]; omega))

theorem leftmostEnd_none_char (ml : Bool) (a : Ast) (h : List Byte)
    (hr : leftmostEnd ml a h = none) :
    ∀ r, r ≤ h.length → ∀ s, s ≤ r → r ∉ endsAt ml h a s := by
  unfold leftmostEnd at hr
  rw [List.range_eq_range'] at hr
  intro r hrle s hs hmem
  have := find_range_none _ _ _ hr r (by omega) (by omega)
  rw [List.any_eq_false] at this
  exact absurd (by simpa using hmem) (by simpa using this s (by rw [List.mem_range]; omega))

theorem leftmostEnd_isSome (ml : Bool) (a : Ast) (h : List Byte) (r s : Nat)
    (hs : s ≤ r) (hmem : r ∈ endsAt ml h a s) (hle : r ≤ h.length) :
    ∃ r', leftmostEnd ml a h = some r' ∧ r' ≤ r := by
  cases hl : leftmostEnd ml a h with
  | none => exact absurd hmem (leftmostEnd_none_char ml a h hl r hle s hs)
  | some r' =>
    refine ⟨r', rfl, ?_⟩
    obtain ⟨-, -, h3⟩ := leftmostEnd_some_char ml a h r' hl
    by_contra hgt
    exact h3 r (by omega) s hs hmem

/-- A match of a newline-free, assertion-free pattern cannot span a newline
byte of the haystack. -/
theorem no_nl_cross (ml : Bool) (a : Ast) (hplain : plainAst a = true)
    (hnl : nlFreeAst a = true) (h : List Byte) (i j k : Nat)
    (hj : h[j]? = some 10) (hij : i ≤ j) (hjk : j < k)
    (hk : k ∈ endsAt ml h a i) : False := by
  have hjlen : j < h.length := by
    have : h[j]? ≠ none := by rw [hj]; simp
    have := List.getElem?_eq_none_iff.not.mp (by simpa using this)
    omega
  have hsplit : h = h.take j ++ 10 :: h.drop (j + 1) := by
    conv_lhs => rw [← List.take_append_drop j h]
    congr 1
    rw [List.drop_eq_getElem_cons hjlen]
    congr 1
    have := List.getElem?_eq_getElem hjlen
    rw [hj] at this
    exact (Option.some_injective _ this.symm)
  have hlen : (h.take j).length = j := by
    rw [List.length_take]
    omega
  rw [hsplit] at hk
  rw [nl_stop ml (h.take j) (h.drop (j + 1)) a hplain hnl i k (by omega)] at hk
  have := endsAt_upper ml (h.take j) a i k hk
  rw [hlen] at this
  omega

/-- Decomposing a suffix at a further offset. -/
theorem drop_decomp (block : List Byte) (posU pend : Nat)
    (h1 : posU ≤ pend) (h2 : pend ≤ block.length) :
    block.drop posU = (block.drop posU).take (pend - posU) ++ block.drop pend ∧
      ((block.drop posU).take (pend - posU)).length = pend - posU := by
  constructor
  · conv_lhs => rw [← List.take_append_drop (pend - posU) (block.drop posU)]
    congr 1
    rw [List.drop_drop]
    congr 1
    omega
  · rw [List.length_take, List.length_drop]
    omega

/-- Exact characterisation of the `^p\0` matches. -/
theorem pkgpat_ends (ml : Bool) (h : List Byte) (i k : Nat) :
    k ∈ endsAt ml h packageEntryPattern i ↔
      (assertHolds ml h .startLine i = true ∧ h[i]? = some 112 ∧
        h[i + 1]? = some 0 ∧ k = i + 2) := by
  constructor
  · intro hk
    simp only [packageEntryPattern, endsAt] at hk
    rw [List.mem_flatMap] at hk
    obtain ⟨m, hm, hk⟩ := hk
    split at hm
    case isTrue hass =>
      simp only [List.mem_singleton] at hm
      subst hm
      rw [List.mem_flatMap] at hk
      obtain ⟨m2, hm2, hk2⟩ := hk
      split at hm2
      case isTrue h112 =>
        simp only [List.mem_singleton] at hm2
        subst hm2
        split at hk2
        case isTrue h0 =>
          simp only [List.mem_singleton] at hk2
          exact ⟨hass, h112, h0, hk2⟩
        case isFalse => simp at hk2
      case isFalse => simp at hm2
    case isFalse => simp at hm
  · rintro ⟨hass, h112, h0, rfl⟩
    simp only [packageEntryPattern, endsAt]
    rw [List.mem_flatMap]
    refine ⟨i, ?_, ?_⟩
    · rw [if_pos hass]
      simp
    · rw [List.mem_flatMap]
      refine ⟨i + 1, ?_, ?_⟩
      · rw [if_pos h112]
        simp
      · rw [if_pos h0]
        simp

theorem nextML_some_char (pat : Ast) (block : List Byte) (start s e : Nat)
    (h : nextMatchingLine pat block start = some (s, e)) :
    ∃ rel, leftmostEnd true pat (block.drop start) = some rel ∧
      s = lineStartAt block (start + rel) ∧ e = lineEndAt block (start + rel) := by
  unfold nextMatchingLine at h
  cases hl : leftmostEnd true pat (block.drop start) with
  | none => rw [hl] at h; cases h
  | some rel =>
    rw [hl] at h
    have h' : (lineStartAt block (start + rel), lineEndAt block (start + rel)) = (s, e) :=
      Option.some_injective _ h
    rw [Prod.mk.injEq] at h'
    exact ⟨rel, rfl, h'.1.symm, h'.2.symm⟩

/-- The returned line of `next_matching_line` ends at a newline or at the
block end, and lies within the block. -/
theorem nextML_end_geom (pat : Ast) (block : List Byte) (start s e : Nat)
    (h : nextMatchingLine pat block start = some (s, e)) :
    (block[e - 1]? = some 10 ∨ e = block.length) ∧ e ≤ block.length := by
  obtain ⟨rel, -, -, he⟩ := nextML_some_char pat block start s e h
  subst he
  refine ⟨?_, lineEndAt_le block _⟩
  rcases lineEndAt_spec block (start + rel) with ⟨k, hkeq, -, hknl, -⟩ | ⟨hleneq, -⟩
  · left
    rw [hkeq]
    simpa using hknl
  · right
    exact hleneq

/-- If there is no match at or after `posU`, there is none at or after the
later offset `pend` either. -/
theorem nextML_skip_none (pat : Ast) (hplain : plainAst pat = true)
    (block : List Byte) (posU pend : Nat) (hle : posU ≤ pend)
    (hlen : pend ≤ block.length)
    (h : nextMatchingLine pat block posU = none) :
    nextMatchingLine pat block pend = none := by
  unfold nextMatchingLine at h ⊢
  cases hl : leftmostEnd true pat (block.drop posU) with
  | some rel => rw [hl] at h; exact Option.noConfusion h
  | none =>
    cases hl2 : leftmostEnd true pat (block.drop pend) with
    | none => rfl
    | some r =>
      exfalso
      obtain ⟨hrle, ⟨s, hs, hmem⟩, -⟩ := leftmostEnd_some_char _ _ _ _ hl2
      rw [List.length_drop] at hrle
      obtain ⟨hdec, hlen2⟩ := drop_decomp block posU pend hle hlen
      have hmem2 : (pend - posU + r) ∈ endsAt true (block.drop posU) pat (pend - posU + s) := by
        rw [hdec]
        have := (plain_shift true ((block.drop posU).take (pend - posU)) (block.drop pend)
          pat hplain s (((block.drop posU).take (pend - posU)).length + r)).mpr ⟨r, hmem, rfl⟩
        rw [hlen2] at this
        exact this
      obtain ⟨r', hr', -⟩ := leftmostEnd_isSome true pat (block.drop posU)
        (pend - posU + r) (pend - posU + s) (by omega) hmem2
        (by rw [List.length_drop]; omega)
      rw [hl] at hr'
      exact Option.noConfusion hr'

/-- If the leftmost matching line from `posU` lies entirely beyond the end
`pend` of the skipped package, searching from `pend` finds the same line. -/
theorem nextML_skip_some (pat : Ast) (hplain : plainAst pat = true)
    (hnl : nlFreeAst pat = true) (block : List Byte) (posU pend s e : Nat)
    (hle : posU ≤ pend) (hlen : pend ≤ block.length)
    (hnlg : block[pend - 1]? = some 10 ∨ pend = block.length)
    (h : nextMatchingLine pat block posU = some (s, e)) (hgt : pend < e) :
    nextMatchingLine pat block pend = some (s, e) := by
  rcases Nat.eq_or_lt_of_le hle with rfl | hltU
  · exact h
  obtain ⟨rel, hl, hs, he⟩ := nextML_some_char pat block posU s e h
  obtain ⟨hrle, ⟨srel, hsrel, hmem⟩, hmin⟩ := leftmostEnd_some_char _ _ _ _ hl
  rw [List.length_drop] at hrle
  have hnl10 : block[pend - 1]? = some 10 := by
    rcases hnlg with h10 | hleneq
    · exact h10
    · exfalso
      have : e ≤ block.length := he ▸ lineEndAt_le block _
      omega
  have hposm_ge : pend ≤ posU + rel := by
    by_contra hlt
    push_neg at hlt
    have : e ≤ pend := by
      have := lineEndAt_le_of_nl block (posU + rel) (pend - 1) hnl10 (by omega)
      omega
    omega
  have hstart_ge : pend ≤ posU + srel := by
    by_contra hlt
    push_neg at hlt
    have hj : (block.drop posU)[pend - 1 - posU]? = some 10 := by
      rw [List.getElem?_drop]
      rw [show posU + (pend - 1 - posU) = pend - 1 from by omega]
      exact hnl10
    exact no_nl_cross true pat hplain hnl (block.drop posU) srel (pend - 1 - posU) rel
      hj (by omega) (by omega) hmem
  obtain ⟨hdec, hlen2⟩ := drop_decomp block posU pend hle hlen
  have hmem2 : ∃ j, j ∈ endsAt true (block.drop pend) pat (srel - (pend - posU)) ∧
      rel = (pend - posU) + j := by
    have hx := plain_shift true ((block.drop posU).take (pend - posU)) (block.drop pend)
      pat hplain (srel - (pend - posU)) rel
    rw [hlen2] at hx
    rw [show (pend - posU) + (srel - (pend - posU)) = srel from by omega] at hx
    rw [← hdec] at hx
    exact hx.mp hmem
  obtain ⟨j, hjmem, hjeq⟩ := hmem2
  obtain ⟨r', hr', hr'le⟩ := leftmostEnd_isSome true pat (block.drop pend) j
    (srel - (pend - posU)) (by omega) hjmem (by rw [List.length_drop]; omega)
  have hr'eq : r' = j := by
    by_contra hne
    have hr'lt : r' < j := by omega
    obtain ⟨-, ⟨s2, hs2, hmem3⟩, -⟩ := leftmostEnd_some_char _ _ _ _ hr'
    have hup : ((pend - posU) + r') ∈ endsAt true (block.drop posU) pat ((pend - posU) + s2) := by
      rw [hdec]
      have := (plain_shift true ((block.drop posU).take (pend - posU)) (block.drop pend)
        pat hplain s2 (((block.drop posU).take (pend - posU)).length + r')).mpr
        ⟨r', hmem3, rfl⟩
      rw [hlen2] at this
      exact this
    exact hmin ((pend - posU) + r') (by omega) ((pend - posU) + s2) (by omega) hup
  rw [hr'eq] at hr'
  unfold nextMatchingLine
  rw [hr']
  show some (lineStartAt block (pend + j), lineEndAt block (pend + j)) = some (s, e)
  rw [show pend + j = posU + rel from by omega, ← hs, ← he]

theorem parseMeta_p (x : List Byte) : parseMeta (112 :: x) = none := by
  cases x with
  | nil => rfl
  | cons a t => rfl

/-- A record body starting with the package marker byte `p` never decodes as
a file entry. -/
theorem decode_p (rest : List Byte) : FileTreeEntry.decode (112 :: rest) = none := by
  unfold FileTreeEntry.decode
  cases hf : (112 :: rest).findIdx? (fun b => b = 0) with
  | none => rfl
  | some k =>
    cases k with
    | zero => rfl
    | succ k' =>
      show (parseMeta ((112 :: rest).take (k' + 1))).map _ = none
      rw [List.take_succ_cons, parseMeta_p]
      rfl

theorem cons_of_getElem0 (l : List Byte) (b : Byte) (h : l[0]? = some b) :
    ∃ t, l = b :: t := by
  cases l with
  | nil => simp at h
  | cons a t =>
    simp at h
    exact ⟨t, by rw [h]⟩

/-! ## `find_package` inversion and idempotence -/

theorem findPackageSearch_some_inv (block : List Byte) (fps : FindPkgState)
    (itemEnd : Nat) (pkg : StorePath) (pend : Nat) (fps1 : FindPkgState)
    (h : findPackageSearch block fps itemEnd = .ok (some (pkg, pend)) fps1) :
    fps.noMorePackage = false ∧
      ∃ s0 json, nextMatchingLine packageEntryPattern block itemEnd = some (s0, pend) ∧
        sliceRange block (s0 + 2) (pend - 1) = some json ∧
        storePathFromJson json = some pkg ∧
        fps1 = ⟨some (pkg, pend), false⟩ := by
  unfold findPackageSearch at h
  by_cases hnm : fps.noMorePackage
  · rw [if_pos hnm] at h
    injection h with h1 _
    exact Option.noConfusion h1
  · rw [if_neg hnm] at h
    have hnm' : fps.noMorePackage = false := by
      cases hb : fps.noMorePackage
      · rfl
      · exact absurd hb hnm
    refine ⟨hnm', ?_⟩
    cases hml : nextMatchingLine packageEntryPattern block itemEnd with
    | none =>
      rw [hml] at h
      injection h with h1 _
      exact Option.noConfusion h1
    | some se =>
      obtain ⟨s0, pend0⟩ := se
      simp only [hml] at h
      cases hsl : sliceRange block (s0 + 2) (pend0 - 1) with
      | none =>
        simp only [hsl] at h
        exact FindPkgOut.noConfusion h
      | some json =>
        simp only [hsl] at h
        cases hsp : storePathFromJson json with
        | none =>
          simp only [hsp] at h
          exact FindPkgOut.noConfusion h
        | some pkg0 =>
          simp only [hsp] at h
          injection h with h1 h2
          injection h1 with h1
          rw [Prod.mk.injEq] at h1
          obtain ⟨rfl, rfl⟩ := h1
          exact ⟨s0, json, rfl, hsl, hsp, by rw [← h2, hnm']⟩

theorem findPackageSearch_none_inv (block : List Byte) (fps : FindPkgState)
    (itemEnd : Nat) (fps1 : FindPkgState)
    (h : findPackageSearch block fps itemEnd = .ok none fps1) :
    (fps.noMorePackage = true ∧ fps1 = fps) ∨
      (fps.noMorePackage = false ∧
        nextMatchingLine packageEntryPattern block itemEnd = none ∧
        fps1 = ⟨fps.cachedPackage, true⟩) := by
  unfold findPackageSearch at h
  by_cases hnm : fps.noMorePackage
  · rw [if_pos hnm] at h
    injection h with _ h2
    exact Or.inl ⟨hnm, h2.symm⟩
  · rw [if_neg hnm] at h
    have hnm' : fps.noMorePackage = false := by
      cases hb : fps.noMorePackage
      · rfl
      · exact absurd hb hnm
    cases hml : nextMatchingLine packageEntryPattern block itemEnd with
    | none =>
      rw [hml] at h
      injection h with _ h2
      exact Or.inr ⟨hnm', rfl, h2.symm⟩
    | some se =>
      obtain ⟨s0, pend0⟩ := se
      simp only [hml] at h
      cases hsl : sliceRange block (s0 + 2) (pend0 - 1) with
      | none =>
        simp only [hsl] at h
        exact FindPkgOut.noConfusion h
      | some json =>
        simp only [hsl] at h
        cases hsp : storePathFromJson json with
        | none =>
          simp only [hsp] at h
          exact FindPkgOut.noConfusion h
        | some pkg0 =>
          simp only [hsp] at h
          injection h with h1 _
          exact Option.noConfusion h1

theorem findPackageSearch_build (block : List Byte) (fps : FindPkgState)
    (itemEnd : Nat) (pkg : StorePath) (pend s0 : Nat) (json : List Byte)
    (hnm : fps.noMorePackage = false)
    (hml : nextMatchingLine packageEntryPattern block itemEnd = some (s0, pend))
    (hsl : sliceRange block (s0 + 2) (pend - 1) = some json)
    (hsp : storePathFromJson json = some pkg) :
    findPackageSearch block fps itemEnd = .ok (some (pkg, pend)) ⟨some (pkg, pend), false⟩ := by
  unfold findPackageSearch
  rw [if_neg (by rw [hnm]; exact Bool.false_ne_true)]
  simp only [hml, hsl, hsp, hnm]

/-- The package-line geometry extracted from a successful package search. -/
theorem findPackageSearch_geom (block : List Byte) (fps : FindPkgState)
    (itemEnd : Nat) (pkg : StorePath) (pend : Nat) (fps1 : FindPkgState)
    (hcall : itemEnd = 0 ∨ block[itemEnd - 1]? = some 10 ∨ itemEnd = block.length)
    (h : findPackageSearch block fps itemEnd = .ok (some (pkg, pend)) fps1) :
    itemEnd ≤ pend ∧ pend ≤ block.length ∧ pkgLineGeom block pend := by
  obtain ⟨hnm, s0, json, hml, -, -, -⟩ := findPackageSearch_some_inv block fps itemEnd pkg pend fps1 h
  obtain ⟨rel, hl, hs0, he0⟩ := nextML_some_char packageEntryPattern block itemEnd s0 pend hml
  obtain ⟨hrle, ⟨srel, hsrel, hmem⟩, -⟩ := leftmostEnd_some_char _ _ _ _ hl
  rw [List.length_drop] at hrle
  rw [pkgpat_ends] at hmem
  obtain ⟨hass, h112, h0, hrel⟩ := hmem
  have h112a : block[itemEnd + srel]? = some 112 := by
    rw [← List.getElem?_drop]
    exact h112
  have h0a : block[itemEnd + srel + 1]? = some 0 := by
    rw [show itemEnd + srel + 1 = itemEnd + (srel + 1) from by omega, ← List.getElem?_drop]
    exact h0
  have ha1 : itemEnd + srel + 1 < block.length := by
    have : block[itemEnd + srel + 1]? ≠ none := by rw [h0a]; simp
    have := List.getElem?_eq_none_iff.not.mp (by simpa using this)
    omega
  have hrelpos : itemEnd + rel = itemEnd + srel + 2 := by omega
  have hpLe : pend ≤ block.length := he0 ▸ lineEndAt_le block _
  have hpGe : itemEnd + srel + 2 ≤ pend := by
    rw [he0, hrelpos]
    exact lineEndAt_ge block (itemEnd + srel + 2) (by omega)
  have hpend_line : pend = lineEndAt block (itemEnd + srel + 2) := by
    rw [he0, hrelpos]
  have hstart : itemEnd + srel = 0 ∨ block[itemEnd + srel - 1]? = some 10 := by
    have hass' : (decide (srel = 0) ||
        decide (byteBefore (block.drop itemEnd) srel = some 10)) = true := hass
    rw [Bool.or_eq_true, decide_eq_true_eq, decide_eq_true_eq] at hass'
    rcases hass' with h0rel | hbb
    · subst h0rel
      rcases hcall with h00 | hnl0 | hlend
      · left
        omega
      · right
        simpa using hnl0
      · exfalso
        have : block[itemEnd]? = some 112 := by simpa using h112a
        have : block[itemEnd]? ≠ none := by rw [this]; simp
        have := List.getElem?_eq_none_iff.not.mp (by simpa using this)
        omega
    · right
      unfold byteBefore at hbb
      by_cases hz : srel = 0
      · rw [if_pos hz] at hbb
        exact Option.noConfusion hbb
      · rw [if_neg hz] at hbb
        rw [List.getElem?_drop] at hbb
        rw [show itemEnd + srel - 1 = itemEnd + (srel - 1) from by omega]
        exact hbb
  have hnonl : ∀ k, itemEnd + srel ≤ k → k < pend - 1 → block[k]? ≠ some 10 := by
    intro k hk1 hk2
    rcases Nat.lt_or_ge k (itemEnd + srel + 2) with hk | hk
    · rcases Nat.lt_or_ge k (itemEnd + srel + 1) with hk' | hk'
      · have hke : k = itemEnd + srel := by omega
        rw [hke, h112a]
        simp
      · have hke : k = itemEnd + srel + 1 := by omega
        rw [hke, h0a]
        simp
    · rcases lineEndAt_spec block (itemEnd + srel + 2) with
        ⟨k0, hk0eq, -, -, hk0no⟩ | ⟨hleneq, hno⟩
      · have hpk : pend = k0 + 1 := by rw [hpend_line, hk0eq]
        exact hk0no k hk (by omega)
      · have hpk : pend = block.length := by rw [hpend_line, hleneq]
        exact hno k hk (by omega)
  have hlast : block[pend - 1]? = some 10 ∨ pend = block.length := by
    rcases lineEndAt_spec block (itemEnd + srel + 2) with
      ⟨k0, hk0eq, -, hk0nl, -⟩ | ⟨hleneq, -⟩
    · left
      have hpk : pend = k0 + 1 := by rw [hpend_line, hk0eq]
      rw [hpk]
      simpa using hk0nl
    · right
      rw [hpend_line, hleneq]
  exact ⟨by omega, hpLe,
    ⟨itemEnd + srel, hpGe, h112a, h0a, hnonl, hstart, hlast⟩⟩

/-- Characterisation of a successful `find_package` call: the result is in
range, its line has package geometry, it is cached, and the invariant is
preserved. -/
theorem findPackage_some_char (block : List Byte) (fps : FindPkgState)
    (itemEnd : Nat) (pkg : StorePath) (pend : Nat) (fps1 : FindPkgState)
    (hinv : fpsInv block fps)
    (hcall : itemEnd = 0 ∨ block[itemEnd - 1]? = some 10 ∨ itemEnd = block.length)
    (h : findPackage block fps itemEnd = .ok (some (pkg, pend)) fps1) :
    itemEnd ≤ pend ∧ pend ≤ block.length ∧ pkgLineGeom block pend ∧
      fps1.cachedPackage = some (pkg, pend) ∧ fpsInv block fps1 := by
  have hsearch : findPackageSearch block fps itemEnd = .ok (some (pkg, pend)) fps1 →
      itemEnd ≤ pend ∧ pend ≤ block.length ∧ pkgLineGeom block pend ∧
        fps1.cachedPackage = some (pkg, pend) ∧ fpsInv block fps1 := by
    intro hs
    obtain ⟨h1, h2, h3⟩ := findPackageSearch_geom block fps itemEnd pkg pend fps1 hcall hs
    obtain ⟨-, -, -, -, -, -, hfps1⟩ :=
      findPackageSearch_some_inv block fps itemEnd pkg pend fps1 hs
    refine ⟨h1, h2, h3, by rw [hfps1], ?_⟩
    intro pkg' pe' hcc
    rw [hfps1] at hcc
    simp only at hcc
    injection hcc with hcc
    rw [Prod.mk.injEq] at hcc
    obtain ⟨rfl, rfl⟩ := hcc
    exact ⟨h2, h3⟩
  unfold findPackage at h
  cases hc : fps.cachedPackage with
  | some pe =>
    obtain ⟨pkg0, e0⟩ := pe
    rw [hc] at h
    have h' : (if itemEnd < e0 then FindPkgOut.ok (some (pkg0, e0)) fps
        else findPackageSearch block fps itemEnd) = .ok (some (pkg, pend)) fps1 := h
    by_cases hlt : itemEnd < e0
    · rw [if_pos hlt] at h'
      injection h' with h1 h2
      injection h1 with h1
      rw [Prod.mk.injEq] at h1
      obtain ⟨heq1, heq2⟩ := h1
      subst heq1
      subst heq2
      obtain ⟨hle2, hgeom⟩ := hinv pkg0 e0 hc
      exact ⟨by omega, hle2, hgeom, by rw [← h2]; exact hc, by rw [← h2]; exact hinv⟩
    · rw [if_neg hlt] at h'
      exact hsearch h'
  | none =>
    rw [hc] at h
    have h' : findPackageSearch block fps itemEnd = .ok (some (pkg, pend)) fps1 := h
    exact hsearch h'

/-- A `find_package` call returning `None` leaves the cache unchanged and
preserves the invariant. -/
theorem findPackage_none_char (block : List Byte) (fps : FindPkgState)
    (itemEnd : Nat) (fps1 : FindPkgState) (hinv : fpsInv block fps)
    (h : findPackage block fps itemEnd = .ok none fps1) :
    fps1.cachedPackage = fps.cachedPackage ∧ fpsInv block fps1 := by
  unfold findPackage at h
  have hmain : fps1.cachedPackage = fps.cachedPackage := by
    cases hc : fps.cachedPackage with
    | some pe =>
      obtain ⟨pkg0, e0⟩ := pe
      rw [hc] at h
      have h' : (if itemEnd < e0 then FindPkgOut.ok (some (pkg0, e0)) fps
          else findPackageSearch block fps itemEnd) = .ok none fps1 := h
      by_cases hlt : itemEnd < e0
      · rw [if_pos hlt] at h'
        injection h' with h1 _
        exact Option.noConfusion h1
      · rw [if_neg hlt] at h'
        rcases findPackageSearch_none_inv block fps itemEnd fps1 h' with
          ⟨-, heq⟩ | ⟨-, -, hfps1⟩
        · rw [heq]
          exact hc
        · rw [hfps1]
          exact hc
    | none =>
      rw [hc] at h
      have h' : findPackageSearch block fps itemEnd = .ok none fps1 := h
      rcases findPackageSearch_none_inv block fps itemEnd fps1 h' with
        ⟨-, heq⟩ | ⟨-, -, hfps1⟩
      · rw [heq]
        exact hc
      · rw [hfps1]
        exact hc
  refine ⟨hmain, ?_⟩
  intro pkg' pe' hcc
  rw [hmain] at hcc
  exact hinv pkg' pe' hcc

/-- A cache hit of `find_package`. -/
theorem findPackage_cache_hit (block : List Byte) (fps : FindPkgState)
    (itemEnd : Nat) (pkg : StorePath) (pe : Nat)
    (hc : fps.cachedPackage = some (pkg, pe)) (hlt : itemEnd < pe) :
    findPackage block fps itemEnd = .ok (some (pkg, pe)) fps := by
  unfold findPackage
  rw [hc]
  show (if itemEnd < pe then FindPkgOut.ok (some (pkg, pe)) fps
    else findPackageSearch block fps itemEnd) = FindPkgOut.ok (some (pkg, pe)) fps
  rw [if_pos hlt]

/-- The second `find_package(mat.end())` call of the scan body returns the
same package as the first. -/
theorem findPackage_idem_some (block : List Byte) (fps : FindPkgState)
    (itemEnd : Nat) (pkg : StorePath) (pend : Nat) (fps1 : FindPkgState)
    (h : findPackage block fps itemEnd = .ok (some (pkg, pend)) fps1) :
    findPackage block fps1 itemEnd = .ok (some (pkg, pend)) fps1 := by
  have hre : ∀ fps0 : FindPkgState,
      findPackageSearch block fps0 itemEnd = .ok (some (pkg, pend)) fps1 →
      findPackage block fps1 itemEnd = .ok (some (pkg, pend)) fps1 := by
    intro fps0 hs
    obtain ⟨hnm, s0, json, hml, hsl, hsp, hfps1⟩ :=
      findPackageSearch_some_inv block fps0 itemEnd pkg pend fps1 hs
    subst hfps1
    unfold findPackage
    show (if itemEnd < pend then
        FindPkgOut.ok (some (pkg, pend)) (⟨some (pkg, pend), false⟩ : FindPkgState)
      else findPackageSearch block ⟨some (pkg, pend), false⟩ itemEnd) = _
    by_cases hlt2 : itemEnd < pend
    · rw [if_pos hlt2]
    · rw [if_neg hlt2]
      exact findPackageSearch_build block ⟨some (pkg, pend), false⟩ itemEnd
        pkg pend s0 json rfl hml hsl hsp
  unfold findPackage at h
  cases hc : fps.cachedPackage with
  | some pe =>
    obtain ⟨pkg0, e0⟩ := pe
    rw [hc] at h
    have h' : (if itemEnd < e0 then FindPkgOut.ok (some (pkg0, e0)) fps
        else findPackageSearch block fps itemEnd) = .ok (some (pkg, pend)) fps1 := h
    by_cases hlt : itemEnd < e0
    · rw [if_pos hlt] at h'
      injection h' with h1 h2
      injection h1 with h1
      rw [Prod.mk.injEq] at h1
      obtain ⟨heq1, heq2⟩ := h1
      subst heq1
      subst heq2
      rw [← h2]
      exact findPackage_cache_hit block fps itemEnd pkg0 e0 hc hlt
    · rw [if_neg hlt] at h'
      exact hre fps h'
  | none =>
    rw [hc] at h
    have h' : findPackageSearch block fps itemEnd = .ok (some (pkg, pend)) fps1 := h
    exact hre fps h'

/-- The second `find_package(mat.end())` call also agrees when the first
found no package. -/
theorem findPackage_idem_none (block : List Byte) (fps : FindPkgState)
    (itemEnd : Nat) (fps1 : FindPkgState)
    (h : findPackage block fps itemEnd = .ok none fps1) :
    findPackage block fps1 itemEnd = .ok none fps1 := by
  have hnomore : ∀ fps0 : FindPkgState, fps0.noMorePackage = true →
      (∀ pkg' pe', fps0.cachedPackage = some (pkg', pe') → ¬ itemEnd < pe') →
      findPackage block fps0 itemEnd = .ok none fps0 := by
    intro fps0 hnm0 hmiss
    have hsearch : findPackageSearch block fps0 itemEnd = .ok none fps0 := by
      unfold findPackageSearch
      rw [if_pos hnm0]
    unfold findPackage
    cases hc0 : fps0.cachedPackage with
    | none => exact hsearch
    | some pe0 =>
      obtain ⟨pkgc, ec⟩ := pe0
      show (if itemEnd < ec then FindPkgOut.ok (some (pkgc, ec)) fps0
        else findPackageSearch block fps0 itemEnd) = FindPkgOut.ok none fps0
      rw [if_neg (hmiss pkgc ec hc0)]
      exact hsearch
  unfold findPackage at h
  cases hc : fps.cachedPackage with
  | some pe =>
    obtain ⟨pkg0, e0⟩ := pe
    rw [hc] at h
    have h' : (if itemEnd < e0 then FindPkgOut.ok (some (pkg0, e0)) fps
        else findPackageSearch block fps itemEnd) = .ok none fps1 := h
    by_cases hlt : itemEnd < e0
    · rw [if_pos hlt] at h'
      injection h' with h1 _
      exact Option.noConfusion h1
    · rw [if_neg hlt] at h'
      rcases findPackageSearch_none_inv block fps itemEnd fps1 h' with
        ⟨hnm, rfl⟩ | ⟨hnm, hml, hfps1⟩
      · refine hnomore _ hnm ?_
        intro pkg' pe' hcc
        rw [hc] at hcc
        injection hcc with hcc
        rw [Prod.mk.injEq] at hcc
        obtain ⟨-, hpe⟩ := hcc
        rw [← hpe]
        exact hlt
      · refine hnomore _ (by rw [hfps1]) ?_
        intro pkg' pe' hcc
        rw [hfps1] at hcc
        have hcc' : fps.cachedPackage = some (pkg', pe') := hcc
        rw [hc] at hcc'
        injection hcc' with hcc'
        rw [Prod.mk.injEq] at hcc'
        obtain ⟨-, hpe⟩ := hcc'
        rw [← hpe]
        exact hlt
  | none =>
    rw [hc] at h
    have h' : findPackageSearch block fps itemEnd = .ok none fps1 := h
    rcases findPackageSearch_none_inv block fps itemEnd fps1 h' with
      ⟨hnm, rfl⟩ | ⟨hnm, hml, hfps1⟩
    · refine hnomore _ hnm ?_
      intro pkg' pe' hcc
      rw [hc] at hcc
      exact Option.noConfusion hcc
    · refine hnomore _ (by rw [hfps1]) ?_
      intro pkg' pe' hcc
      rw [hfps1] at hcc
      have hcc' : fps.cachedPackage = some (pkg', pe') := hcc
      rw [hc] at hcc'
      exact Option.noConfusion hcc'

/-! ## Fuel monotonicity and filter bookkeeping -/

theorem scanBlockLoop_succ (prms : QueryParams) (block : List Byte) (fuel pos : Nat)
    (fps : FindPkgState) (found : List (StorePath × FileTreeEntry))
    (fwp : List FileTreeEntry) :
    scanBlockLoop prms block (fuel + 1) pos fps found fwp =
      match scanStep prms block pos fps found fwp with
      | .stop o => o
      | .cont pos1 fps1 found1 fwp1 => scanBlockLoop prms block fuel pos1 fps1 found1 fwp1 :=
  rfl

theorem scanBlockLoop_mono (prms : QueryParams) (block : List Byte) :
    ∀ (fuel fuel' pos : Nat) (fps : FindPkgState)
      (found fU : List (StorePath × FileTreeEntry)) (fwp wU : List FileTreeEntry),
      fuel ≤ fuel' →
      scanBlockLoop prms block fuel pos fps found fwp = .ok fU wU →
      scanBlockLoop prms block fuel' pos fps found fwp = .ok fU wU := by
  intro fuel
  induction fuel with
  | zero =>
    intro fuel' pos fps found fU fwp wU _ h
    exact ScanOut.noConfusion h
  | succ fuel ih =>
    intro fuel' pos fps found fU fwp wU hle h
    cases fuel' with
    | zero => omega
    | succ fuel2 =>
      rw [scanBlockLoop_succ] at h ⊢
      cases hs : scanStep prms block pos fps found fwp with
      | stop o =>
        simp only [hs] at h ⊢
        exact h
      | cont pos1 fps1 found1 fwp1 =>
        simp only [hs] at h ⊢
        exact ih fuel2 pos1 fps1 found1 fU fwp1 wU (by omega) h

theorem unfiltered_pattern (prms : QueryParams) :
    (unfiltered prms).pattern = prms.pattern := rfl

theorem unfiltered_exactPattern (prms : QueryParams) :
    (unfiltered prms).exactPattern = prms.exactPattern := rfl

theorem shouldSearch_unfiltered (prms : QueryParams) (pkg : StorePath) :
    shouldSearchPackage (unfiltered prms) pkg = true := rfl

/-- One lock-step scan iteration of the filtered and the unfiltered query
from positions with the same next matching line: either both stop cleanly,
or the unfiltered run aborts (error or panic), or both continue in sync, or
the package filter rejects and the filtered run skips to the package end
while the unfiltered run continues inside the package span. -/
theorem scanStep_pair (prms : QueryParams) (block : List Byte)
    (posU posF : Nat) (fps : FindPkgState)
    (foundU : List (StorePath × FileTreeEntry)) (fwpU : List FileTreeEntry)
    (hinv : fpsInv block fps)
    (hEq : nextMatchingLine prms.pattern block posF =
      nextMatchingLine prms.pattern block posU) :
    (scanStep (unfiltered prms) block posU fps foundU fwpU = .stop (.ok foundU fwpU) ∧
      scanStep prms block posF fps
        (foundU.filter (fun pr => shouldSearchPackage prms pr.1)) fwpU =
        .stop (.ok (foundU.filter (fun pr => shouldSearchPackage prms pr.1)) fwpU)) ∨
    (∃ o, scanStep (unfiltered prms) block posU fps foundU fwpU = .stop o ∧
      ∀ f w, o ≠ .ok f w) ∨
    (∃ pos1 fps1 foundU1 fwpU1,
      scanStep (unfiltered prms) block posU fps foundU fwpU = .cont pos1 fps1 foundU1 fwpU1 ∧
      scanStep prms block posF fps
        (foundU.filter (fun pr => shouldSearchPackage prms pr.1)) fwpU =
        .cont pos1 fps1 (foundU1.filter (fun pr => shouldSearchPackage prms pr.1)) fwpU1 ∧
      fpsInv block fps1) ∨
    (∃ e1 pend1 pkg1 fps1 foundU1,
      scanStep (unfiltered prms) block posU fps foundU fwpU = .cont e1 fps1 foundU1 fwpU ∧
      scanStep prms block posF fps
        (foundU.filter (fun pr => shouldSearchPackage prms pr.1)) fwpU =
        .cont pend1 fps1 (foundU.filter (fun pr => shouldSearchPackage prms pr.1)) fwpU ∧
      foundU1.filter (fun pr => shouldSearchPackage prms pr.1) =
        foundU.filter (fun pr => shouldSearchPackage prms pr.1) ∧
      fps1.cachedPackage = some (pkg1, pend1) ∧
      shouldSearchPackage prms pkg1 = false ∧ e1 ≤ pend1 ∧ pend1 ≤ block.length ∧
      pkgLineGeom block pend1 ∧ fpsInv block fps1) := by
  cases hml : nextMatchingLine prms.pattern block posU with
  | none =>
    left
    constructor
    · simp only [scanStep, unfiltered_pattern, hml]
    · simp only [scanStep, hEq, hml]
  | some se =>
    obtain ⟨s, e⟩ := se
    have hcall : e = 0 ∨ block[e - 1]? = some 10 ∨ e = block.length := by
      obtain ⟨h1, -⟩ := nextML_end_geom prms.pattern block posU s e hml
      exact Or.inr h1
    cases hsl : sliceRange block s (e - 1) with
    | none =>
      right; left
      refine ⟨.panicked, ?_, fun f w h => ScanOut.noConfusion h⟩
      simp only [scanStep, unfiltered_pattern, hml, hsl]
    | some eb =>
      cases hpk : hasMatch true packageEntryPattern eb with
      | true =>
        right; right; left
        refine ⟨e, fps, foundU, fwpU, ?_, ?_, hinv⟩
        · simp only [scanStep, unfiltered_pattern, hml, hsl]
          rw [if_pos hpk]
        · simp only [scanStep, hEq, hml, hsl]
          rw [if_pos hpk]
      | false =>
        have hpk' : ¬ hasMatch true packageEntryPattern eb = true := by
          rw [hpk]
          exact Bool.false_ne_true
        cases hfp : findPackage block fps e with
        | panicked =>
          right; left
          refine ⟨.panicked, ?_, fun f w h => ScanOut.noConfusion h⟩
          simp only [scanStep, unfiltered_pattern, hml, hsl, hfp]
          rw [if_neg hpk']
        | err er =>
          right; left
          refine ⟨.err er foundU fwpU, ?_, fun f w h => ScanOut.noConfusion h⟩
          simp only [scanStep, unfiltered_pattern, hml, hsl, hfp]
          rw [if_neg hpk']
        | ok r fps1 =>
          cases r with
          | none =>
            obtain ⟨hcc, hinv1⟩ := findPackage_none_char block fps e fps1 hinv hfp
            have hfp2 := findPackage_idem_none block fps e fps1 hfp
            have hstepU : scanStep (unfiltered prms) block posU fps foundU fwpU =
                scanBody (unfiltered prms) block e fps1 foundU fwpU eb := by
              simp only [scanStep, unfiltered_pattern, hml, hsl, hfp]
              rw [if_neg hpk']
            have hstepF : scanStep prms block posF fps
                (foundU.filter (fun pr => shouldSearchPackage prms pr.1)) fwpU =
                scanBody prms block e fps1
                  (foundU.filter (fun pr => shouldSearchPackage prms pr.1)) fwpU eb := by
              simp only [scanStep, hEq, hml, hsl, hfp]
              rw [if_neg hpk']
            cases hdec : FileTreeEntry.decode eb with
            | none =>
              right; left
              refine ⟨.err (.entryParse eb) foundU fwpU, ?_, fun f w h => ScanOut.noConfusion h⟩
              rw [hstepU]
              simp only [scanBody, hdec]
            | some entry =>
              cases hex : hasMatch false prms.exactPattern entry.path with
              | false =>
                have hex' : ¬ hasMatch false prms.exactPattern entry.path = true := by
                  rw [hex]
                  exact Bool.false_ne_true
                right; right; left
                refine ⟨e, fps1, foundU, fwpU, ?_, ?_, hinv1⟩
                · rw [hstepU]
                  simp only [scanBody, unfiltered_exactPattern, hdec]
                  rw [if_neg hex']
                · rw [hstepF]
                  simp only [scanBody, hdec]
                  rw [if_neg hex']
              | true =>
                right; right; left
                refine ⟨e, fps1, foundU, fwpU ++ [entry], ?_, ?_, hinv1⟩
                · rw [hstepU]
                  simp only [scanBody, unfiltered_exactPattern, hdec, hfp2]
                  rw [if_pos hex]
                · rw [hstepF]
                  simp only [scanBody, hdec, hfp2]
                  rw [if_pos hex]
          | some pe =>
            obtain ⟨pkg, pend⟩ := pe
            obtain ⟨hep, hpLe, hgeom, hcch, hinv1⟩ :=
              findPackage_some_char block fps e pkg pend fps1 hinv hcall hfp
            have hfp2 := findPackage_idem_some block fps e pkg pend fps1 hfp
            cases hq : shouldSearchPackage prms pkg with
            | true =>
              have hstepU : scanStep (unfiltered prms) block posU fps foundU fwpU =
                  scanBody (unfiltered prms) block e fps1 foundU fwpU eb := by
                simp only [scanStep, unfiltered_pattern, hml, hsl, hfp]
                rw [if_neg hpk', if_pos (shouldSearch_unfiltered prms pkg)]
              have hstepF : scanStep prms block posF fps
                  (foundU.filter (fun pr => shouldSearchPackage prms pr.1)) fwpU =
                  scanBody prms block e fps1
                    (foundU.filter (fun pr => shouldSearchPackage prms pr.1)) fwpU eb := by
                simp only [scanStep, hEq, hml, hsl, hfp]
                rw [if_neg hpk', if_pos hq]
              cases hdec : FileTreeEntry.decode eb with
              | none =>
                right; left
                refine ⟨.err (.entryParse eb) foundU fwpU, ?_, fun f w h => ScanOut.noConfusion h⟩
                rw [hstepU]
                simp only [scanBody, hdec]
              | some entry =>
                cases hex : hasMatch false prms.exactPattern entry.path with
                | false =>
                  have hex' : ¬ hasMatch false prms.exactPattern entry.path = true := by
                    rw [hex]
                    exact Bool.false_ne_true
                  right; right; left
                  refine ⟨e, fps1, foundU, fwpU, ?_, ?_, hinv1⟩
                  · rw [hstepU]
                    simp only [scanBody, unfiltered_exactPattern, hdec]
                    rw [if_neg hex']
                  · rw [hstepF]
                    simp only [scanBody, hdec]
                    rw [if_neg hex']
                | true =>
                  right; right; left
                  refine ⟨e, fps1, foundU ++ [(pkg, entry)], fwpU, ?_, ?_, hinv1⟩
                  · rw [hstepU]
                    simp only [scanBody, unfiltered_exactPattern, hdec, hfp2]
                    rw [if_pos hex]
                  · rw [hstepF]
                    simp only [scanBody, hdec, hfp2]
                    rw [if_pos hex]
                    rw [List.filter_append]
                    simp [hq]
            | false =>
              have hq' : ¬ shouldSearchPackage prms pkg = true := by
                rw [hq]
                exact Bool.false_ne_true
              have hstepF : scanStep prms block posF fps
                  (foundU.filter (fun pr => shouldSearchPackage prms pr.1)) fwpU =
                  .cont pend fps1
                    (foundU.filter (fun pr => shouldSearchPackage prms pr.1)) fwpU := by
                simp only [scanStep, hEq, hml, hsl, hfp]
                rw [if_neg hpk', if_neg hq']
              have hstepU : scanStep (unfiltered prms) block posU fps foundU fwpU =
                  scanBody (unfiltered prms) block e fps1 foundU fwpU eb := by
                simp only [scanStep, unfiltered_pattern, hml, hsl, hfp]
                rw [if_neg hpk', if_pos (shouldSearch_unfiltered prms pkg)]
              cases hdec : FileTreeEntry.decode eb with
              | none =>
                right; left
                refine ⟨.err (.entryParse eb) foundU fwpU, ?_, fun f w h => ScanOut.noConfusion h⟩
                rw [hstepU]
                simp only [scanBody, hdec]
              | some entry =>
                cases hex : hasMatch false prms.exactPattern entry.path with
                | false =>
                  have hex' : ¬ hasMatch false prms.exactPattern entry.path = true := by
                    rw [hex]
                    exact Bool.false_ne_true
                  right; right; right
                  refine ⟨e, pend, pkg, fps1, foundU, ?_, hstepF, rfl, hcch, hq,
                    hep, hpLe, hgeom, hinv1⟩
                  rw [hstepU]
                  simp only [scanBody, unfiltered_exactPattern, hdec]
                  rw [if_neg hex']
                | true =>
                  right; right; right
                  refine ⟨e, pend, pkg, fps1, foundU ++ [(pkg, entry)], ?_, hstepF, ?_,
                    hcch, hq, hep, hpLe, hgeom, hinv1⟩
                  · rw [hstepU]
                    simp only [scanBody, unfiltered_exactPattern, hdec, hfp2]
                    rw [if_pos hex]
                  · rw [List.filter_append]
                    simp [hq]

/-- The scan-loop simulation: if the unfiltered scan of a block completes
cleanly, the filtered scan from a related position completes with exactly
the filtered `found` list and the same deferred entries. -/
theorem scanLoop_sim (prms : QueryParams) (block : List Byte)
    (hplain : plainAst prms.pattern = true) (hnl : nlFreeAst prms.pattern = true) :
    ∀ (fuel posU posF : Nat) (fps : FindPkgState)
      (foundU fU : List (StorePath × FileTreeEntry)) (fwpU wU : List FileTreeEntry),
      fpsInv block fps →
      (posF = posU ∨
        ∃ pkg, fps.cachedPackage = some (pkg, posF) ∧
          shouldSearchPackage prms pkg = false ∧ posU ≤ posF ∧
          posF ≤ block.length ∧ pkgLineGeom block posF) →
      scanBlockLoop (unfiltered prms) block fuel posU fps foundU fwpU = .ok fU wU →
      scanBlockLoop prms block fuel posF fps
        (foundU.filter (fun pr => shouldSearchPackage prms pr.1)) fwpU =
        .ok (fU.filter (fun pr => shouldSearchPackage prms pr.1)) wU := by
  intro fuel
  induction fuel with
  | zero =>
    intro posU posF fps foundU fU fwpU wU _ _ h
    exact ScanOut.noConfusion h
  | succ fuel ih =>
    intro posU posF fps foundU fU fwpU wU hinv hmode hU
    rw [scanBlockLoop_succ] at hU
    have hfinish : nextMatchingLine prms.pattern block posF =
        nextMatchingLine prms.pattern block posU →
        scanBlockLoop prms block (fuel + 1) posF fps
          (foundU.filter (fun pr => shouldSearchPackage prms pr.1)) fwpU =
          .ok (fU.filter (fun pr => shouldSearchPackage prms pr.1)) wU := by
      intro hEq
      rcases scanStep_pair prms block posU posF fps foundU fwpU hinv hEq with
        ⟨hsU, hsF⟩ | ⟨o, hsU, hno⟩ | ⟨pos1, fps1, foundU1, fwpU1, hsU, hsF, hinv1⟩ |
        ⟨e1, pend1, pkg1, fps1, foundU1, hsU, hsF, hfilt, hcch, hq, hee, hpe, hgeom1, hinv1⟩
      · simp only [hsU] at hU
        injection hU with h1 h2
        subst h1
        subst h2
        rw [scanBlockLoop_succ]
        simp only [hsF]
      · simp only [hsU] at hU
        exact absurd hU (hno fU wU)
      · simp only [hsU] at hU
        rw [scanBlockLoop_succ]
        simp only [hsF]
        exact ih pos1 pos1 fps1 foundU1 fU fwpU1 wU hinv1 (Or.inl rfl) hU
      · simp only [hsU] at hU
        rw [scanBlockLoop_succ]
        simp only [hsF]
        have hrec := ih e1 pend1 fps1 foundU1 fU fwpU wU hinv1
          (Or.inr ⟨pkg1, hcch, hq, hee, hpe, hgeom1⟩) hU
        rw [hfilt] at hrec
        exact hrec
    rcases hmode with rfl | ⟨pkg, hcch, hq, hle, hlen, hgeom⟩
    · exact hfinish rfl
    · cases hml : nextMatchingLine prms.pattern block posU with
      | none =>
        exact hfinish
          (by rw [nextML_skip_none prms.pattern hplain block posU posF hle hlen hml, hml])
      | some se =>
        obtain ⟨s, e⟩ := se
        rcases Nat.lt_or_ge posF e with hgt | hle2
        · obtain ⟨-, -, -, -, -, -, hlastg⟩ := hgeom
          exact hfinish
            (by rw [nextML_skip_some prms.pattern hplain hnl block posU posF s e hle
              hlen hlastg hml hgt, hml])
        · -- the found line lies inside the skipped package span
          have hq' : ¬ shouldSearchPackage prms pkg = true := by
            rw [hq]
            exact Bool.false_ne_true
          cases hsl : sliceRange block s (e - 1) with
          | none =>
            have hsU : scanStep (unfiltered prms) block posU fps foundU fwpU =
                .stop .panicked := by
              simp only [scanStep, unfiltered_pattern, hml, hsl]
            simp only [hsU] at hU
            exact ScanOut.noConfusion hU
          | some eb =>
            cases hpk : hasMatch true packageEntryPattern eb with
            | true =>
              have hsU : scanStep (unfiltered prms) block posU fps foundU fwpU =
                  .cont e fps foundU fwpU := by
                simp only [scanStep, unfiltered_pattern, hml, hsl]
                rw [if_pos hpk]
              simp only [hsU] at hU
              have hmode' : posF = e ∨
                  ∃ pkg', fps.cachedPackage = some (pkg', posF) ∧
                    shouldSearchPackage prms pkg' = false ∧ e ≤ posF ∧
                    posF ≤ block.length ∧ pkgLineGeom block posF := by
                rcases Nat.eq_or_lt_of_le hle2 with heq2 | hlt2
                · exact Or.inl heq2.symm
                · exact Or.inr ⟨pkg, hcch, hq, hle2, hlen, hgeom⟩
              have hrec := ih e posF fps foundU fU fwpU wU hinv hmode' hU
              exact scanBlockLoop_mono prms block fuel (fuel + 1) posF fps _ _ _ _
                (by omega) hrec
            | false =>
              have hpk' : ¬ hasMatch true packageEntryPattern eb = true := by
                rw [hpk]
                exact Bool.false_ne_true
              rcases Nat.eq_or_lt_of_le hle2 with heq2 | hlt2
              · -- e = posF: this is the package line itself; the unfiltered
                -- run fails to decode it, so its hypothesis is contradictory
                obtain ⟨sp, hsp2, h112, h0, hnonl, hspL, hlastg⟩ := hgeom
                have hsp_pos : sp = 0 ∨ (1 ≤ sp ∧ block[sp - 1]? = some 10) := by
                  rcases hspL with hz | hnl10
                  · exact Or.inl hz
                  · by_cases hz : sp = 0
                    · exfalso
                      rw [hz] at hnl10 h112
                      simp only [Nat.zero_sub] at hnl10
                      rw [hnl10] at h112
                      exact absurd h112 (by decide)
                    · exact Or.inr ⟨by omega, hnl10⟩
                have heq3 : e = posF := heq2
                subst heq3
                obtain ⟨rel, hlm, hs, he⟩ := nextML_some_char prms.pattern block posU s e hml
                obtain ⟨hrle2, -, -⟩ := leftmostEnd_some_char _ _ _ _ hlm
                rw [List.length_drop] at hrle2
                have hpm_le : posU + rel ≤ block.length := by omega
                have hpm_ge : sp ≤ posU + rel := by
                  by_contra hcon
                  push_neg at hcon
                  rcases hsp_pos with hsp0 | ⟨hsp1, hspnl⟩
                  · omega
                  · have := lineEndAt_le_of_nl block (posU + rel) (sp - 1) hspnl (by omega)
                    rw [← he] at this
                    omega
                have hseq : s = sp ∨ s = block.length ∧ e = block.length := by
                  rcases lineEndAt_spec block (posU + rel) with
                    ⟨k0, hk0eq, hk0ge, hk0nl, hk0no⟩ | ⟨hleneq, hno2⟩
                  · -- the line ends at a real newline: the match position is
                    -- strictly inside the line
                    left
                    have hek : e = k0 + 1 := by rw [he, hk0eq]
                    rcases hsp_pos with hsp0 | ⟨hsp1, hspnl⟩
                    · have hz := lineStartAt_of_none block (posU + rel)
                        (fun k hk => hnonl k (by omega) (by omega))
                      rw [hs, hz]
                      omega
                    · have hz := lineStartAt_of_nl block (posU + rel) (sp - 1) hspnl
                        (by omega) (fun k hk1 hk2 => hnonl k (by omega) (by omega))
                      rw [hs, hz]
                      omega
                  · have hel : e = block.length := by rw [he, hleneq]
                    by_cases hpm_lt : posU + rel < block.length
                    · left
                      rcases hsp_pos with hsp0 | ⟨hsp1, hspnl⟩
                      · have hz := lineStartAt_of_none block (posU + rel)
                          (fun k hk => hnonl k (by omega) (by omega))
                        rw [hs, hz]
                        omega
                      · have hz := lineStartAt_of_nl block (posU + rel) (sp - 1) hspnl
                          (by omega) (fun k hk1 hk2 => hnonl k (by omega) (by omega))
                        rw [hs, hz]
                        omega
                    · -- match position at the very end of the block
                      by_cases hnlL : block[block.length - 1]? = some 10
                      · right
                        refine ⟨?_, hel⟩
                        have hz := lineStartAt_of_nl block (posU + rel) (block.length - 1)
                          hnlL (by omega) (fun k hk1 hk2 => by omega)
                        rw [hs, hz]
                        omega
                      · left
                        have hnn : ∀ k, k < posU + rel → k < sp ∨ block[k]? ≠ some 10 := by
                          intro k hk
                          rcases Nat.lt_or_ge k sp with hks | hks
                          · exact Or.inl hks
                          · right
                            rcases Nat.lt_or_ge k (block.length - 1) with hkl | hkl
                            · exact hnonl k hks (by omega)
                            · have : k = block.length - 1 := by omega
                              rw [this]
                              exact hnlL
                        rcases hsp_pos with hsp0 | ⟨hsp1, hspnl⟩
                        · have hz := lineStartAt_of_none block (posU + rel)
                            (fun k hk => by
                              rcases hnn k hk with hks | hne
                              · omega
                              · exact hne)
                          rw [hs, hz]
                          omega
                        · have hz := lineStartAt_of_nl block (posU + rel) (sp - 1) hspnl
                            (by omega) (fun k hk1 hk2 => by
                              rcases hnn k hk2 with hks | hne
                              · omega
                              · exact hne)
                          rw [hs, hz]
                          omega
                rcases hseq with hseq | ⟨hsl2, hel2⟩
                · -- the record body starts with the package marker `p`
                  have hsl' := hsl
                  rw [hseq] at hsl'
                  unfold sliceRange at hsl'
                  by_cases hcond : sp ≤ e - 1 ∧ e - 1 ≤ block.length
                  · rw [if_pos hcond] at hsl'
                    injection hsl' with hsl'
                    have heb0 : eb[0]? = some 112 := by
                      rw [← hsl']
                      rw [List.getElem?_take, if_pos (by omega)]
                      rw [List.getElem?_drop]
                      simpa using h112
                    obtain ⟨rest, hebeq⟩ := cons_of_getElem0 eb 112 heb0
                    subst hebeq
                    cases hfp : findPackage block fps e with
                    | panicked =>
                      have hsU : scanStep (unfiltered prms) block posU fps foundU fwpU =
                          .stop .panicked := by
                        simp only [scanStep, unfiltered_pattern, hml, hsl, hfp]
                        rw [if_neg hpk']
                      simp only [hsU] at hU
                      exact ScanOut.noConfusion hU
                    | err er =>
                      have hsU : scanStep (unfiltered prms) block posU fps foundU fwpU =
                          .stop (.err er foundU fwpU) := by
                        simp only [scanStep, unfiltered_pattern, hml, hsl, hfp]
                        rw [if_neg hpk']
                      simp only [hsU] at hU
                      exact ScanOut.noConfusion hU
                    | ok r fps2 =>
                      cases r with
                      | none =>
                        have hsU : scanStep (unfiltered prms) block posU fps foundU fwpU =
                            .stop (.err (.entryParse (112 :: rest)) foundU fwpU) := by
                          simp only [scanStep, unfiltered_pattern, hml, hsl, hfp]
                          rw [if_neg hpk']
                          simp only [scanBody, decode_p]
                        simp only [hsU] at hU
                        exact ScanOut.noConfusion hU
                      | some pe2 =>
                        obtain ⟨pkg2, pend2⟩ := pe2
                        have hsU : scanStep (unfiltered prms) block posU fps foundU fwpU =
                            .stop (.err (.entryParse (112 :: rest)) foundU fwpU) := by
                          simp only [scanStep, unfiltered_pattern, hml, hsl, hfp]
                          rw [if_neg hpk', if_pos (shouldSearch_unfiltered prms pkg2)]
                          simp only [scanBody, decode_p]
                        simp only [hsU] at hU
                        exact ScanOut.noConfusion hU
                  · rw [if_neg hcond] at hsl'
                    exact Option.noConfusion hsl'
                · -- degenerate line at the very end: the slice panics
                  rw [hsl2, hel2] at hsl
                  unfold sliceRange at hsl
                  rw [if_neg (by omega)] at hsl
                  exact Option.noConfusion hsl
              · -- e < posF: cache hit inside the skipped span
                have hfp : findPackage block fps e = .ok (some (pkg, posF)) fps :=
                  findPackage_cache_hit block fps e pkg posF hcch hlt2
                have hsU0 : scanStep (unfiltered prms) block posU fps foundU fwpU =
                    scanBody (unfiltered prms) block e fps foundU fwpU eb := by
                  simp only [scanStep, unfiltered_pattern, hml, hsl, hfp]
                  rw [if_neg hpk', if_pos (shouldSearch_unfiltered prms pkg)]
                cases hdec : FileTreeEntry.decode eb with
                | none =>
                  have hsU : scanStep (unfiltered prms) block posU fps foundU fwpU =
                      .stop (.err (.entryParse eb) foundU fwpU) := by
                    rw [hsU0]
                    simp only [scanBody, hdec]
                  simp only [hsU] at hU
                  exact ScanOut.noConfusion hU
                | some entry =>
                  cases hex : hasMatch false prms.exactPattern entry.path with
                  | false =>
                    have hex' : ¬ hasMatch false prms.exactPattern entry.path = true := by
                      rw [hex]
                      exact Bool.false_ne_true
                    have hsU : scanStep (unfiltered prms) block posU fps foundU fwpU =
                        .cont e fps foundU fwpU := by
                      rw [hsU0]
                      simp only [scanBody, unfiltered_exactPattern, hdec]
                      rw [if_neg hex']
                    simp only [hsU] at hU
                    have hrec := ih e posF fps foundU fU fwpU wU hinv
                      (Or.inr ⟨pkg, hcch, hq, by omega, hlen, hgeom⟩) hU
                    exact scanBlockLoop_mono prms block fuel (fuel + 1) posF fps _ _ _ _
                      (by omega) hrec
                  | true =>
                    have hsU : scanStep (unfiltered prms) block posU fps foundU fwpU =
                        .cont e fps (foundU ++ [(pkg, entry)]) fwpU := by
                      rw [hsU0]
                      simp only [scanBody, unfiltered_exactPattern, hdec, hfp]
                      rw [if_pos hex]
                    simp only [hsU] at hU
                    have hrec := ih e posF fps (foundU ++ [(pkg, entry)]) fU fwpU wU hinv
                      (Or.inr ⟨pkg, hcch, hq, by omega, hlen, hgeom⟩) hU
                    rw [List.filter_append,
                      show List.filter (fun pr => shouldSearchPackage prms pr.1)
                        [(pkg, entry)] = [] from by simp [hq],
                      List.append_nil] at hrec
                    exact scanBlockLoop_mono prms block fuel (fuel + 1) posF fps _ _ _ _
                      (by omega) hrec

/-- Block-level simulation: one `fill_buf` iteration on one decoded block. -/
theorem processBlock_sim (prms : QueryParams) (block : List Byte)
    (hplain : plainAst prms.pattern = true) (hnl : nlFreeAst prms.pattern = true)
    (fwp0 : List FileTreeEntry) (fU : List (StorePath × FileTreeEntry))
    (wU : List FileTreeEntry)
    (hU : processBlock (unfiltered prms) block fwp0 = .ok fU wU) :
    processBlock prms block fwp0 =
      .ok (fU.filter (fun pr => shouldSearchPackage prms pr.1)) wU := by
  simp only [processBlock] at hU ⊢
  by_cases hemp : fwp0.isEmpty
  · rw [if_pos hemp] at hU ⊢
    exact scanLoop_sim prms block hplain hnl (block.length + 1) 0 0 ⟨none, false⟩
      [] fU fwp0 wU (fun _ _ h => Option.noConfusion h) (Or.inl rfl) hU
  · rw [if_neg hemp] at hU ⊢
    cases hfp : findPackage block ⟨none, false⟩ 0 with
    | panicked =>
      simp only [hfp] at hU
      exact ScanOut.noConfusion hU
    | err er =>
      simp only [hfp] at hU
      exact ScanOut.noConfusion hU
    | ok r fps1 =>
      cases r with
      | none =>
        obtain ⟨-, hinv1⟩ := findPackage_none_char block ⟨none, false⟩ 0 fps1
          (fun _ _ h => Option.noConfusion h) hfp
        simp only [hfp] at hU ⊢
        exact scanLoop_sim prms block hplain hnl (block.length + 1) 0 0 fps1
          [] fU fwp0 wU hinv1 (Or.inl rfl) hU
      | some pe =>
        obtain ⟨pkg, pend⟩ := pe
        obtain ⟨h0p, hpLe, hgeom, hcch, hinv1⟩ := findPackage_some_char block
          ⟨none, false⟩ 0 pkg pend fps1 (fun _ _ h => Option.noConfusion h)
          (Or.inl rfl) hfp
        simp only [hfp] at hU ⊢
        cases hq : shouldSearchPackage prms pkg with
        | true =>
          rw [if_pos (shouldSearch_unfiltered prms pkg)] at hU
          rw [if_pos rfl]
          have hsim := scanLoop_sim prms block hplain hnl (block.length + 1) 0 0 fps1
            (fwp0.map (fun en => (pkg, en))) fU [] wU hinv1 (Or.inl rfl) hU
          rw [show (fwp0.map (fun en => (pkg, en))).filter
              (fun pr => shouldSearchPackage prms pr.1) =
              fwp0.map (fun en => (pkg, en)) from
            List.filter_eq_self.mpr (fun x hx => by
              obtain ⟨en, -, rfl⟩ := List.mem_map.mp hx
              simpa using hq)] at hsim
          exact hsim
        | false =>
          have hq' : ¬ shouldSearchPackage prms pkg = true := by
            rw [hq]
            exact Bool.false_ne_true
          rw [if_pos (shouldSearch_unfiltered prms pkg)] at hU
          rw [if_neg Bool.false_ne_true]
          have hsim := scanLoop_sim prms block hplain hnl (block.length + 1) 0 pend fps1
            (fwp0.map (fun en => (pkg, en))) fU [] wU hinv1
            (Or.inr ⟨pkg, hcch, hq, by omega, hpLe, hgeom⟩) hU
          rw [show (fwp0.map (fun en => (pkg, en))).filter
              (fun pr => shouldSearchPackage prms pr.1) = [] from by
            rw [List.filter_eq_nil_iff]
            intro x hx
            obtain ⟨en, -, rfl⟩ := List.mem_map.mp hx
            simp [hq]] at hsim
          exact hsim

/-- Whole-run simulation at the reference-accumulation level: if the
unfiltered query completes cleanly over a block stream, the filtered query
returns exactly the filtered pair list and the same leftover entries. -/
theorem collectBlocks_sim (prms : QueryParams)
    (hplain : plainAst prms.pattern = true) (hnl : nlFreeAst prms.pattern = true) :
    ∀ (blocks : List (List Byte)) (fwp : List FileTreeEntry)
      (fU : List (StorePath × FileTreeEntry)) (wU : List FileTreeEntry),
      collectBlocks (unfiltered prms) blocks fwp = .ok fU wU →
      collectBlocks prms blocks fwp =
        .ok (fU.filter (fun pr => shouldSearchPackage prms pr.1)) wU := by
  intro blocks
  induction blocks with
  | nil =>
    intro fwp fU wU h
    have h' : ScanOut.ok [] fwp = .ok fU wU := h
    injection h' with h1 h2
    subst h1
    subst h2
    rfl
  | cons b rest ih =>
    intro fwp fU wU h
    simp only [collectBlocks] at h ⊢
    cases hpb : processBlock (unfiltered prms) b fwp with
    | panicked =>
      simp only [hpb] at h
      exact ScanOut.noConfusion h
    | diverged =>
      simp only [hpb] at h
      exact ScanOut.noConfusion h
    | err e f w =>
      simp only [hpb] at h
      exact ScanOut.noConfusion h
    | ok f1 w1 =>
      simp only [hpb] at h
      have hpbF := processBlock_sim prms b hplain hnl fwp f1 w1 hpb
      simp only [hpbF]
      cases hcr : collectBlocks (unfiltered prms) rest w1 with
      | ok fs w2 =>
        simp only [hcr] at h
        injection h with h1 h2
        subst h1
        subst h2
        have hcrF := ih w1 fs w2 hcr
        simp only [hcrF]
        rw [List.filter_append]
      | err e fs w2 =>
        simp only [hcr] at h
        exact ScanOut.noConfusion h
      | panicked =>
        simp only [hcr] at h
        exact ScanOut.noConfusion h
      | diverged =>
        simp only [hcr] at h
        exact ScanOut.noConfusion h

/-! ## From the reference accumulation to the iterator -/

theorem fillBufAux_cons_empty (prms : QueryParams) (b : List Byte)
    (rest : List (List Byte)) (fwp : List FileTreeEntry) :
    fillBufAux prms (b :: rest) [] fwp =
      match processBlock prms b fwp with
      | .panicked => .panicked
      | .diverged => .diverged
      | .err e found1 fwp1 => .err e ⟨rest, found1, fwp1⟩
      | .ok found1 fwp1 => fillBufAux prms rest found1 fwp1 := rfl

theorem fillBufAux_nonempty (prms : QueryParams) (blocks : List (List Byte))
    (p : StorePath × FileTreeEntry) (t : List (StorePath × FileTreeEntry))
    (fwp : List FileTreeEntry) :
    fillBufAux prms blocks (p :: t) fwp = .ok ⟨blocks, p :: t, fwp⟩ := by
  cases blocks with
  | nil => rfl
  | cons b rest => rfl

/-- A clean reference run decomposes the `fill_buf` block loop: either the
stream is exhausted with nothing found, or the loop stops at the first block
batch that is nonempty and the rest of the run continues from there. -/
theorem fillBufAux_collect (prms : QueryParams) :
    ∀ (blocks : List (List Byte)) (fwp : List FileTreeEntry)
      (F : List (StorePath × FileTreeEntry)) (W : List FileTreeEntry),
      collectBlocks prms blocks fwp = .ok F W →
      (F = [] ∧ fillBufAux prms blocks [] fwp = .ok ⟨[], [], W⟩) ∨
      (∃ batch rest fwp1 F1, batch ≠ [] ∧
        fillBufAux prms blocks [] fwp = .ok ⟨rest, batch, fwp1⟩ ∧
        collectBlocks prms rest fwp1 = .ok F1 W ∧ F = batch ++ F1 ∧
        rest.length < blocks.length) := by
  intro blocks
  induction blocks with
  | nil =>
    intro fwp F W h
    have h' : ScanOut.ok [] fwp = .ok F W := h
    injection h' with h1 h2
    subst h1
    subst h2
    exact Or.inl ⟨rfl, fillBufAux_nil prms [] fwp⟩
  | cons b rest ih =>
    intro fwp F W h
    simp only [collectBlocks] at h
    cases hpb : processBlock prms b fwp with
    | panicked =>
      simp only [hpb] at h
      exact ScanOut.noConfusion h
    | diverged =>
      simp only [hpb] at h
      exact ScanOut.noConfusion h
    | err e f w =>
      simp only [hpb] at h
      exact ScanOut.noConfusion h
    | ok f1 w1 =>
      simp only [hpb] at h
      cases hcr : collectBlocks prms rest w1 with
      | err e fs w2 =>
        simp only [hcr] at h
        exact ScanOut.noConfusion h
      | panicked =>
        simp only [hcr] at h
        exact ScanOut.noConfusion h
      | diverged =>
        simp only [hcr] at h
        exact ScanOut.noConfusion h
      | ok fs w2 =>
        simp only [hcr] at h
        injection h with h1 h2
        subst h1
        subst h2
        cases f1 with
        | nil =>
          rcases ih w1 fs w2 hcr with ⟨hF, hfb⟩ |
            ⟨batch, rest2, fwp2, F2, hne, hfb, hcol, hFeq, hlt⟩
          · left
            constructor
            · simp [hF]
            · rw [fillBufAux_cons_empty]
              simp only [hpb]
              exact hfb
          · right
            refine ⟨batch, rest2, fwp2, F2, hne, ?_, hcol, ?_, ?_⟩
            · rw [fillBufAux_cons_empty]
              simp only [hpb]
              exact hfb
            · simp [hFeq]
            · simp
              omega
        | cons p t =>
          right
          refine ⟨p :: t, rest, w1, fs, by simp, ?_, hcr, rfl, by simp⟩
          rw [fillBufAux_cons_empty]
          simp only [hpb]
          exact fillBufAux_nonempty prms rest p t w1

/-- Driving the iterator over a stream whose reference run is clean yields
(as a set) exactly the still-buffered pairs plus the reference pairs. -/
theorem runIter_collect (prms : QueryParams) :
    ∀ (n : Nat) (blocks : List (List Byte)) (found F : List (StorePath × FileTreeEntry))
      (fwp W : List FileTreeEntry),
      collectBlocks prms blocks fwp = .ok F W →
      found.length + F.length + blocks.length < n →
      ∃ l, runIter prms n ⟨blocks, found, fwp⟩ = some l ∧
        ∀ pr, pr ∈ l ↔ (pr ∈ found ∨ pr ∈ F) := by
  intro n
  induction n with
  | zero =>
    intro blocks found F fwp W _ h
    omega
  | succ n ih =>
    intro blocks found F fwp W hcol hlen
    cases found with
    | cons p t =>
      have hne : p :: t ≠ [] := List.cons_ne_nil p t
      have hfill : fillBuf prms ⟨blocks, p :: t, fwp⟩ = .ok ⟨blocks, p :: t, fwp⟩ :=
        fillBufAux_nonempty prms blocks p t fwp
      have hlast := List.getLast?_eq_getLast (p :: t) hne
      have hstep : readerIterNext prms ⟨blocks, p :: t, fwp⟩ =
          .yield ((p :: t).getLast hne) ⟨blocks, (p :: t).dropLast, fwp⟩ := by
        simp [readerIterNext, hfill, hlast]
      have hmain : runIter prms (n + 1) ⟨blocks, p :: t, fwp⟩ =
          (runIter prms n ⟨blocks, (p :: t).dropLast, fwp⟩).map
            (fun l => (p :: t).getLast hne :: l) := by
        simp [runIter, hstep]
      have hlen2 : (p :: t).dropLast.length + F.length + blocks.length < n := by
        rw [List.length_dropLast]
        simp only [List.length_cons] at hlen ⊢
        omega
      obtain ⟨l', hl', hiff⟩ := ih blocks ((p :: t).dropLast) F fwp W hcol hlen2
      refine ⟨(p :: t).getLast hne :: l', by rw [hmain, hl']; rfl, ?_⟩
      intro pr
      rw [List.mem_cons]
      constructor
      · rintro (rfl | hin)
        · exact Or.inl (List.getLast_mem hne)
        · rcases (hiff pr).mp hin with hin2 | hin2
          · exact Or.inl (List.dropLast_subset _ hin2)
          · exact Or.inr hin2
      · rintro (hin | hin)
        · have hsplit := List.dropLast_append_getLast hne
          rw [← hsplit] at hin
          rcases List.mem_append.mp hin with hin2 | hin2
          · exact Or.inr ((hiff pr).mpr (Or.inl hin2))
          · exact Or.inl (by simpa using hin2)
        · exact Or.inr ((hiff pr).mpr (Or.inr hin))
    | nil =>
      rcases fillBufAux_collect prms blocks fwp F W hcol with ⟨hF, hfb⟩ |
        ⟨batch, rest, fwp1, F1, hne, hfb, hcol1, hFeq, hlt⟩
      · subst hF
        have hfill : fillBuf prms ⟨blocks, [], fwp⟩ = .ok ⟨[], [], W⟩ := hfb
        have hstep : readerIterNext prms ⟨blocks, [], fwp⟩ = .done ⟨[], [], W⟩ := by
          simp [readerIterNext, hfill]
        refine ⟨[], by simp [runIter, hstep], ?_⟩
        intro pr
        simp
      · have hbne : batch ≠ [] := hne
        have hfill : fillBuf prms ⟨blocks, [], fwp⟩ = .ok ⟨rest, batch, fwp1⟩ := hfb
        have hlast := List.getLast?_eq_getLast batch hbne
        have hstep : readerIterNext prms ⟨blocks, [], fwp⟩ =
            .yield (batch.getLast hbne) ⟨rest, batch.dropLast, fwp1⟩ := by
          simp [readerIterNext, hfill, hlast]
        have hmain : runIter prms (n + 1) ⟨blocks, [], fwp⟩ =
            (runIter prms n ⟨rest, batch.dropLast, fwp1⟩).map
              (fun l => batch.getLast hbne :: l) := by
          simp [runIter, hstep]
        have hlen2 : batch.dropLast.length + F1.length + rest.length < n := by
          rw [List.length_dropLast]
          have hb1 : 1 ≤ batch.length := List.length_pos.mpr hbne
          have hFlen : F.length = batch.length + F1.length := by
            rw [hFeq, List.length_append]
          omega
        obtain ⟨l', hl', hiff⟩ := ih rest batch.dropLast F1 fwp1 W hcol1 hlen2
        refine ⟨batch.getLast hbne :: l', by rw [hmain, hl']; rfl, ?_⟩
        intro pr
        simp only [List.mem_cons, List.not_mem_nil, false_or]
        constructor
        · rintro (rfl | hin)
          · rw [hFeq]
            exact List.mem_append.mpr (Or.inl (List.getLast_mem hbne))
          · rcases (hiff pr).mp hin with hin2 | hin2
            · rw [hFeq]
              exact List.mem_append.mpr (Or.inl (List.dropLast_subset _ hin2))
            · rw [hFeq]
              exact List.mem_append.mpr (Or.inr hin2)
        · intro hin
          rw [hFeq] at hin
          rcases List.mem_append.mp hin with hin2 | hin2
          · have hsplit := List.dropLast_append_getLast hbne
            rw [← hsplit] at hin2
            rcases List.mem_append.mp hin2 with hin3 | hin3
            · exact Or.inr ((hiff pr).mpr (Or.inl hin3))
            · exact Or.inl (by simpa using hin3)
          · exact Or.inr ((hiff pr).mpr (Or.inr hin2))

/-- The grep builder only ever produces newline-free patterns: it rejects
patterns with a literal `\n` and strips `\n` from classes. -/
theorem buildGrep_nlFree (a b : Ast) (h : buildGrep a = .ok b) : nlFreeAst b = true := by
  have main : ∀ a : Ast, hasNlLiteral a = false → nlFreeAst (stripNlClasses a) = true := by
    intro a
    induction a with
    | empty => intro _; rfl
    | literal c =>
      intro hl
      simp only [hasNlLiteral, decide_eq_false_iff_not] at hl
      simp [stripNlClasses, nlFreeAst, hl]
    | dot => intro _; rfl
    | cls bs =>
      intro _
      simp [stripNlClasses, nlFreeAst, List.mem_filter]
    | assertion k => intro _; rfl
    | group a iha =>
      intro hl
      simp only [hasNlLiteral] at hl
      simpa [stripNlClasses, nlFreeAst] using iha hl
    | star a iha =>
      intro hl
      simp only [hasNlLiteral] at hl
      simpa [stripNlClasses, nlFreeAst] using iha hl
    | cat l r ihl ihr =>
      intro hl
      simp only [hasNlLiteral, Bool.or_eq_false_iff] at hl
      simp [stripNlClasses, nlFreeAst, ihl hl.1, ihr hl.2]
    | alt l r ihl ihr =>
      intro hl
      simp only [hasNlLiteral, Bool.or_eq_false_iff] at hl
      simp [stripNlClasses, nlFreeAst, ihl hl.1, ihr hl.2]
  unfold buildGrep at h
  by_cases hl : hasNlLiteral a
  · rw [if_pos hl] at h
    exact Except.noConfusion h
  · rw [if_neg hl] at h
    injection h with h
    subst h
    exact main a (by
      cases hb : hasNlLiteral a
      · rfl
      · exact absurd hb hl)

/-- **C6** Filter composition.  (i) `should_search_package(pkg)` is true iff
the package-name regex is absent or matches `pkg.name`, and the hash filter
is absent or equals `pkg.hash`.  (ii) For any filter combination, on an
assertion-free, newline-free matcher pattern, whenever the same query
without filters completes cleanly, both queries complete and the set of
pairs yielded by the filtered query is exactly the set yielded by the
unfiltered query intersected with the pairs whose package satisfies the
filters. -/
theorem c6_filter_composition :
    (∀ (prms : QueryParams) (pkg : StorePath),
      shouldSearchPackage prms pkg = true ↔
        ((prms.packageNamePattern = none ∨
          ∃ r, prms.packageNamePattern = some r ∧ hasMatch false r pkg.name = true) ∧
         (prms.packageHash = none ∨ prms.packageHash = some pkg.hash))) ∧
    (∀ (prms : QueryParams) (blocks : List (List Byte)) (n : Nat)
      (fU : List (StorePath × FileTreeEntry)) (wU : List FileTreeEntry),
      plainAst prms.pattern = true → nlFreeAst prms.pattern = true →
      collectBlocks (unfiltered prms) blocks [] = .ok fU wU →
      fU.length + blocks.length < n →
      ∃ lF lU,
        runIter prms n ⟨blocks, [], []⟩ = some lF ∧
        runIter (unfiltered prms) n ⟨blocks, [], []⟩ = some lU ∧
        ∀ pr : StorePath × FileTreeEntry,
          pr ∈ lF ↔ (pr ∈ lU ∧ shouldSearchPackage prms pr.1 = true)) := by
  constructor
  · intro prms pkg
    unfold shouldSearchPackage
    cases hpn : prms.packageNamePattern with
    | none =>
      cases hph : prms.packageHash with
      | none => simp
      | some hsh => simp
    | some r =>
      cases hph : prms.packageHash with
      | none => simp
      | some hsh => simp
  · intro prms blocks n fU wU hplain hnl hcolU hn
    have hcolF := collectBlocks_sim prms hplain hnl blocks [] fU wU hcolU
    obtain ⟨lU, hlU, hiffU⟩ := runIter_collect (unfiltered prms) n blocks [] fU [] wU
      hcolU (by simp only [List.length_nil]; omega)
    have hfl : (fU.filter (fun pr => shouldSearchPackage prms pr.1)).length ≤ fU.length :=
      List.length_filter_le _ _
    obtain ⟨lF, hlF, hiffF⟩ := runIter_collect prms n blocks []
      (fU.filter (fun pr => shouldSearchPackage prms pr.1)) [] wU hcolF
      (by simp only [List.length_nil]; omega)
    refine ⟨lF, lU, hlF, hlU, ?_⟩
    intro pr
    rw [hiffF pr, hiffU pr]
    simp only [List.not_mem_nil, false_or]
    rw [List.mem_filter]

/-- Witness for C6: hash filter `"aaaa"` (the hash of `pkgDemo`) over a
stream with two packages each owning `/bin/tool`; the filtered query yields
only the `pkgDemo` pair while the unfiltered query yields both. -/
theorem c6_filter_composition_witness :
    (shouldSearchPackage ⟨patBin, patBin, none, some [97, 97, 97, 97]⟩ pkgDemo = true ↔
      ((QueryParams.packageNamePattern ⟨patBin, patBin, none, some [97, 97, 97, 97]⟩ = none ∨
        ∃ r, QueryParams.packageNamePattern ⟨patBin, patBin, none, some [97, 97, 97, 97]⟩ =
          some r ∧ hasMatch false r pkgDemo.name = true) ∧
       (QueryParams.packageHash ⟨patBin, patBin, none, some [97, 97, 97, 97]⟩ = none ∨
        QueryParams.packageHash ⟨patBin, patBin, none, some [97, 97, 97, 97]⟩ =
          some pkgDemo.hash))) ∧
    (∃ lF lU,
      runIter ⟨patBin, patBin, none, some [97, 97, 97, 97]⟩ 5
        ⟨[twoPkgStream], [], []⟩ = some lF ∧
      runIter (unfiltered ⟨patBin, patBin, none, some [97, 97, 97, 97]⟩) 5
        ⟨[twoPkgStream], [], []⟩ = some lU ∧
      ∀ pr : StorePath × FileTreeEntry,
        pr ∈ lF ↔ (pr ∈ lU ∧
          shouldSearchPackage ⟨patBin, patBin, none, some [97, 97, 97, 97]⟩ pr.1 = true)) :=
  ⟨c6_filter_composition.1 ⟨patBin, patBin, none, some [97, 97, 97, 97]⟩ pkgDemo,
   c6_filter_composition.2 ⟨patBin, patBin, none, some [97, 97, 97, 97]⟩ [twoPkgStream] 5
     [(pkgDemo, entryTool), (pkgX2, entryTool)] [] (by decide) (by decide) (by decide)
     (by decide)⟩

end NixIndex
